import Mathlib

/-!
# Block-based big integers (`BigInt`) and their multiplication algorithms

A shallow embedding of `include/BigInt.h`, `src/BigInt.cpp`,
`src/multiplication_algorithms.cpp`, and of `square_matrix` and `matrix_fib` of
`src/main.cpp`.

* `std::vector<uint64_t>` is a `List Nat` (least significant block first); every
  store into a `uint64_t` is reduced `% U64`, every `__uint128_t` expression `% U128`.
* `std::string` is a `List Char`.
* `double` arithmetic (it occurs in `set_string_number`, through `pow`) is IEEE-754
  binary64 with round-to-nearest, ties-to-even, restricted to the non-negative integers
  the parser manipulates: see `roundDouble`.
* Block counts are natural numbers: the `int` / `size_t` counters of the source are
  assumed not to overflow (a vector of `2^31` blocks is not considered).
* The recursive, result-discarding calls of the Karatsuba-style functions are kept in
  the model: the functions take a recursion budget and return `none` when it runs out,
  so that returning a result means the recursion came to an end.
-/

namespace BigInt

/-! ## Constants of `BigInt.h` -/

/-- The constant `static const uint64_t EXPONENT = 18`. -/
def EXPONENT : Nat := 18

/-- The constant `static const uint64_t EXPONENTIATION_BASE = 10`. -/
def EXPONENTIATION_BASE : Nat := 10

/-- The constant `static const uint64_t BASE = pow(EXPONENTIATION_BASE, EXPONENT)`: the
double `1e18` is exact, so the constant is `10^18`. -/
def BASE : Nat := EXPONENTIATION_BASE ^ EXPONENT

/-- The threshold `DIGIT_THRESHOLD_STANDARD` (2048 blocks). -/
def DIGIT_THRESHOLD_STANDARD : Nat := 2048

/-- The threshold `DIGIT_THRESHOLD_KARATSUBA` (200000 blocks). -/
def DIGIT_THRESHOLD_KARATSUBA : Nat := 200000

/-- Number of values of a `uint64_t`. -/
def U64 : Nat := 2 ^ 64

/-- Number of values of a `__uint128_t`. -/
def U128 : Nat := 2 ^ 128

/-! ## The number a block sequence denotes, and the representation invariant -/

/-- The number denoted by a little-endian block sequence: `sum of v[i] * BASE^i`. -/
def value : List Nat → Nat
  | [] => 0
  | x :: xs => x + BASE * value xs

/-- Every block is below the radix. -/
def Bounded (v : List Nat) : Prop := ∀ x ∈ v, x < BASE

/-- The representation invariant of the data model: non-empty, every block below the
radix, and the top block non-zero unless the sequence is exactly `[0]`. -/
def Canonical (v : List Nat) : Prop :=
  v ≠ [] ∧ Bounded v ∧ (v.getLast? = some 0 → v = [0])

instance (v : List Nat) : Decidable (Bounded v) := by
  unfold Bounded; infer_instance

instance (v : List Nat) : Decidable (Canonical v) := by
  unfold Canonical; infer_instance

/-! ## `double` arithmetic on non-negative integers -/

/-- Exponent of the unit in the last place of the binary64 number nearest to `n`:
`0` while `n < 2^53`, one more for every further doubling. -/
def ulpShift : Nat → Nat → Nat
  | 0, _ => 0
  | fuel + 1, n => if n < 2 ^ 53 then 0 else ulpShift fuel (n / 2) + 1

/-- The binary64 (`double`) value nearest to the natural number `n`, ties to even: the
result of converting an integer to `double`, and of rounding the exact sum or product of
two integer-valued doubles (IEEE-754 addition and multiplication return the exact result
rounded). A double has a 53-bit significand, so integers up to `2^53` are kept and a
larger one is rounded to a multiple of `2^e`, where `53 + e` is its bit length. -/
def roundDouble (n : Nat) : Nat :=
  let e := ulpShift 1024 n
  let q := n / 2 ^ e
  let r := n % 2 ^ e
  if 2 * r < 2 ^ e then q * 2 ^ e
  else if 2 ^ e < 2 * r then (q + 1) * 2 ^ e
  else if q % 2 = 0 then q * 2 ^ e
  else (q + 1) * 2 ^ e

/-! ## `BigInt.cpp`: construction from a string, rendering -/

/-- Loop state of `set_string_number`. -/
structure ParseState where
  vector_number : List Nat
  vector_index : Nat
  position : Nat

/-- One iteration of the loop of `set_string_number`, on the character `c`. The
statement is
`vector_number.at(vector_index) += (c - '0') * pow(EXPONENTIATION_BASE, position);`
where `pow` returns a `double`. So `(c - '0') * pow(..)` is a `double`, and the compound
assignment on the `uint64_t` block is evaluated as
`block = (uint64_t)((double)block + term)`: the block is converted to `double`, the sum
is rounded to a `double`, and the result is converted back. `pow(10, position)` itself
is taken as exact (it is representable for `position <= 22`). The character is an ASCII
digit: `c - '0'` is `c.toNat - 48`. -/
def set_string_step (st : ParseState) (c : Char) : ParseState :=
  let wrap := decide (st.position ≥ EXPONENT)
  let position := if wrap then 0 else st.position
  let vector_index := if wrap then st.vector_index + 1 else st.vector_index
  let term := roundDouble ((c.toNat - 48) * roundDouble (EXPONENTIATION_BASE ^ position))
  let block := roundDouble (roundDouble (st.vector_number.getD vector_index 0) + term) % U64
  { vector_number := st.vector_number.set vector_index block
    vector_index := vector_index
    position := position + 1 }

/-- The method `BigInt::set_string_number` (and so the constructor
`BigInt(const std::string&)`): `ceil(size / 18)` zero blocks, then one step for every
character, from the last to the first. -/
def set_string_number (s : List Char) : List Nat :=
  (s.reverse.foldl set_string_step
    { vector_number := List.replicate ((s.length + (EXPONENT - 1)) / EXPONENT) 0
      vector_index := 0
      position := 0 }).vector_number

/-- The function `std::to_string` on a `uint64_t`: the decimal digits, most significant
first. -/
def u64_to_string (n : Nat) : List Char := Nat.toDigits 10 n

/-- The body of the loop of `vector_to_string`: block `i`, left-padded with `'0'` to
`digits_per_block` characters, is inserted at the front of `str`. -/
def vector_to_string_step (vec : List Nat) (digits_per_block : Nat) (str : List Char)
    (i : Nat) : List Char :=
  let s := u64_to_string (vec.getD i 0)
  let num_of_zeros := digits_per_block - s.length
  (List.replicate num_of_zeros '0' ++ s) ++ str

/-- The function `vector_to_string`; `none` stands for the `std::out_of_range` thrown by `vec.at` on
an empty vector. -/
def vector_to_string (vec : List Nat) (digits_per_block : Nat) : Option (List Char) :=
  if vec.length = 0 then none
  else
    let str := (List.range (vec.length - 1)).foldl
      (vector_to_string_step vec digits_per_block) []
    some (u64_to_string (vec.getD (vec.length - 1) 0) ++ str)

/-- The method `BigInt::to_string`. -/
def to_string (v : List Nat) : Option (List Char) := vector_to_string v EXPONENT

/-! ## `BigInt.cpp`: `operator+` -/

/-- Body of the first loop of `operator+` (`i < min_size`); the state is `(sum, carry)`. -/
def add_step_both (n1 n2 : List Nat) (st : List Nat × Nat) (i : Nat) : List Nat × Nat :=
  let s := (n1.getD i 0 + n2.getD i 0 + st.2) % U64
  (st.1.set i (s % BASE), s / BASE)

/-- Body of the second loop of `operator+` (`min_size <= j < max_size`). -/
def add_step_rest (n1 n2 : List Nat) (st : List Nat × Nat) (j : Nat) : List Nat × Nat :=
  let longer := if n1.length ≥ n2.length then n1.getD j 0 else n2.getD j 0
  let s1 := (st.1.getD j 0 + longer) % U64
  let s2 := (s1 + st.2) % U64
  (st.1.set j (s2 % BASE), s2 / BASE)

/-- The state `(sum, carry)` of `operator+` after both loops. -/
def add_loops (n1 n2 : List Nat) : List Nat × Nat :=
  let min_size := if n1.length ≤ n2.length then n1.length else n2.length
  let max_size := if n1.length ≥ n2.length then n1.length else n2.length
  let st := (List.range min_size).foldl (add_step_both n1 n2)
    (List.replicate (max_size + 1) 0, 0)
  ((List.range (max_size - min_size)).map (min_size + ·)).foldl (add_step_rest n1 n2) st

/-- The operator `operator+`. -/
def operator_add (n1 n2 : List Nat) : List Nat :=
  let max_size := if n1.length ≥ n2.length then n1.length else n2.length
  let st := add_loops n1 n2
  let sum := st.1.set max_size ((st.1.getD max_size 0 + st.2) % U64)
  if sum.getD (sum.length - 1) 0 = 0 then sum.eraseIdx (sum.length - 1) else sum

/-! ## `multiplication_algorithms.cpp` -/

/-- The loop of `remove_leading_zeros`, at most `fuel` iterations. -/
def remove_leading_zeros_loop : Nat → List Nat → List Nat
  | 0, vec => vec
  | fuel + 1, vec =>
    if vec.length > 1 ∧ vec.getLast? = some 0 then remove_leading_zeros_loop fuel vec.dropLast
    else vec

/-- The function `remove_leading_zeros`: every iteration pops a block and the loop stops
at one block, so `vec.size()` iterations are never all used
(`remove_leading_zeros_loop_exit`). -/
def remove_leading_zeros (vec : List Nat) : List Nat :=
  remove_leading_zeros_loop vec.length vec

/-- The function `remove_leading_zeros_optimized`: the same loop. -/
def remove_leading_zeros_optimized (vec : List Nat) : List Nat :=
  remove_leading_zeros_loop vec.length vec

/-- One multiply-accumulate step, shared by `multiply_standard` and the three copies in
`multiply_standard_optimized`: `product = x * vec2[j] + result[i+j] + carry` in 128
bits, `result[i+j] = product % base`, `carry = product / base`, both narrowed to 64
bits. The state is `(result, carry)`. -/
def mul_step (x : Nat) (vec2 : List Nat) (i : Nat) (st : List Nat × Nat) (j : Nat) :
    List Nat × Nat :=
  let product := (x * vec2.getD j 0 + st.1.getD (i + j) 0 + st.2) % U128
  (st.1.set (i + j) (product % BASE % U64), product / BASE % U64)

/-- Body of the outer loop of `multiply_standard` for row `i`. -/
def standard_row (vec1 vec2 : List Nat) (result : List Nat) (i : Nat) : List Nat :=
  let st := (List.range vec2.length).foldl (mul_step (vec1.getD i 0) vec2 i) (result, 0)
  st.1.set (i + vec2.length) ((st.1.getD (i + vec2.length) 0 + st.2) % U64)

/-- The function `multiply_standard`. -/
def multiply_standard (vec1 vec2 : List Nat) : List Nat :=
  remove_leading_zeros
    ((List.range vec1.length).foldl (standard_row vec1 vec2)
      (List.replicate (vec1.length + vec2.length) 0))

/-- The unrolled loop `for (; j + 1 < size2; j += 2)` of `multiply_standard_optimized`,
started at `j`; returns the final `j` with the state. -/
def unrolled_loop (x : Nat) (vec2 : List Nat) (i : Nat) :
    Nat → Nat → List Nat × Nat → Nat × (List Nat × Nat)
  | 0, j, st => (j, st)
  | fuel + 1, j, st =>
    if j + 1 < vec2.length then
      unrolled_loop x vec2 i fuel (j + 2) (mul_step x vec2 i (mul_step x vec2 i st j) (j + 1))
    else (j, st)

/-- Body of the outer loop of `multiply_standard_optimized` for row `i`. -/
def optimized_row (vec1 vec2 : List Nat) (result : List Nat) (i : Nat) : List Nat :=
  let multiplier := vec1.getD i 0
  if multiplier = 0 then result
  else
    let r := unrolled_loop multiplier vec2 i vec2.length 0 (result, 0)
    let j := r.1
    let st := if j < vec2.length then mul_step multiplier vec2 i r.2 j else r.2
    if st.2 > 0 then st.1.set (i + vec2.length) ((st.1.getD (i + vec2.length) 0 + st.2) % U64)
    else st.1

/-- The function `multiply_standard_optimized`. -/
def multiply_standard_optimized (vec1 vec2 : List Nat) : List Nat :=
  if vec1.length = 0 ∨ vec2.length = 0 then set_string_number ['0']
  else if vec1.length = 1 ∧ vec1.getD 0 0 = 0 then set_string_number ['0']
  else if vec2.length = 1 ∧ vec2.getD 0 0 = 0 then set_string_number ['0']
  else if vec1.length = 1 ∧ vec1.getD 0 0 = 1 then vec2
  else if vec2.length = 1 ∧ vec2.getD 0 0 = 1 then vec1
  else
    remove_leading_zeros_optimized
      ((List.range vec1.length).foldl (optimized_row vec1 vec2)
        (List.replicate (vec1.length + vec2.length) 0))

/-- The method `std::vector::resize(n, 0)`. -/
def resize (vec : List Nat) (n : Nat) : List Nat :=
  vec.take n ++ List.replicate (n - vec.length) 0

/-- The function `multiply_karatsuba`, with a recursion budget. The three recursive products are
computed (and must return) before the function falls back to `multiply_standard`. -/
def multiply_karatsuba : Nat → List Nat → List Nat → Option (List Nat)
  | 0, _, _ => none
  | fuel + 1, vec1, vec2 =>
    if vec1.length ≤ 32 ∨ vec2.length ≤ 32 then some (multiply_standard vec1 vec2)
    else
      let max_size := max vec1.length vec2.length
      let max_size := if max_size % 2 = 1 then max_size + 1 else max_size
      let a := resize vec1 max_size
      let b := resize vec2 max_size
      let half := max_size / 2
      let a_low := a.take half
      let a_high := a.drop half
      let b_low := b.take half
      let b_high := b.drop half
      (multiply_karatsuba fuel a_low b_low).bind fun _z0 =>
      (multiply_karatsuba fuel a_high b_high).bind fun _z2 =>
      let a_sum := operator_add a_low a_high
      let b_sum := operator_add b_low b_high
      (multiply_karatsuba fuel a_sum b_sum).bind fun _z1 =>
      some (multiply_standard vec1 vec2)

/-- The function `multiply_toom_cook_3`: both branches call `multiply_karatsuba`. -/
def multiply_toom_cook_3 (fuel : Nat) (vec1 vec2 : List Nat) : Option (List Nat) :=
  if vec1.length ≤ 100 ∨ vec2.length ≤ 100 then multiply_karatsuba fuel vec1 vec2
  else multiply_karatsuba fuel vec1 vec2

/-- The lambda `create_subrange` of `multiply_karatsuba_optimized`. -/
def create_subrange (vec : List Nat) (start stop : Nat) : List Nat :=
  if start ≥ vec.length then [0]
  else
    let stop := min stop vec.length
    if start ≥ stop then [0]
    else (vec.take stop).drop start

/-- The function `multiply_karatsuba_optimized`, with a recursion budget. -/
def multiply_karatsuba_optimized : Nat → List Nat → List Nat → Option (List Nat)
  | 0, _, _ => none
  | fuel + 1, vec1, vec2 =>
    let size1 := vec1.length
    let size2 := vec2.length
    if size1 ≤ 32 ∨ size2 ≤ 32 then some (multiply_standard_optimized vec1 vec2)
    else
      let max_size := max size1 size2
      let min_size := min size1 size2
      let split := (max_size + 1) / 2
      let split := if split > min_size then min_size else split
      let a_low := create_subrange vec1 0 split
      let a_high := create_subrange vec1 split vec1.length
      let b_low := create_subrange vec2 0 split
      let b_high := create_subrange vec2 split vec2.length
      let a_high_zero := (a_high.length = 1 ∧ a_high.getD 0 0 = 0) ∨ a_high.length = 0
      let b_high_zero := (b_high.length = 1 ∧ b_high.getD 0 0 = 0) ∨ b_high.length = 0
      if a_high_zero ∧ b_high_zero then multiply_karatsuba_optimized fuel a_low b_low
      else
        (multiply_karatsuba_optimized fuel a_low b_low).bind fun _z0 =>
        (if a_high_zero ∨ b_high_zero then some (set_string_number ['0'])
          else multiply_karatsuba_optimized fuel a_high b_high).bind fun _z2 =>
        let a_sum := operator_add a_low a_high
        let b_sum := operator_add b_low b_high
        (multiply_karatsuba_optimized fuel a_sum b_sum).bind fun _z1 =>
        some (multiply_standard_optimized vec1 vec2)

/-! ## `BigInt.cpp`: `operator*` -/

/-- The three entry points `operator*` can call. -/
inductive Algorithm
  | standard
  | karatsuba
  | toom_cook
  deriving DecidableEq, Repr

/-- The branch `operator*` takes, from the block counts of its operands. -/
def select_algorithm (size1 size2 : Nat) : Algorithm :=
  let total_size := size1 + size2
  let max_size := max size1 size2
  if max_size ≤ DIGIT_THRESHOLD_STANDARD ∨ total_size ≤ DIGIT_THRESHOLD_STANDARD then
    Algorithm.standard
  else if max_size ≤ DIGIT_THRESHOLD_KARATSUBA ∨ total_size ≤ DIGIT_THRESHOLD_KARATSUBA then
    Algorithm.karatsuba
  else Algorithm.toom_cook

/-- The operator `operator*`: `multiply_standard_optimized`,
`multiply_karatsuba_optimized` or `multiply_toom_cook_3`, as `select_algorithm` says. -/
def operator_mul (fuel : Nat) (n1 n2 : List Nat) : Option (List Nat) :=
  match select_algorithm n1.length n2.length with
  | Algorithm.standard => some (multiply_standard_optimized n1 n2)
  | Algorithm.karatsuba => multiply_karatsuba_optimized fuel n1 n2
  | Algorithm.toom_cook => multiply_toom_cook_3 fuel n1 n2

/-! ## Loop invariants -/

/-- Invariant of the two loops of `operator+` once blocks `0 .. k-1` are done. -/
structure AddInv (n1 n2 : List Nat) (len k : Nat) (st : List Nat × Nat) : Prop where
  len_eq : st.1.length = len
  zero_above : ∀ p, k ≤ p → st.1.getD p 0 = 0
  carry_le : st.2 ≤ 1
  bounded : Bounded st.1
  val : value st.1 + st.2 * BASE ^ k = value (n1.take k) + value (n2.take k)

/-- Invariant of the inner loop of row `i` once columns `0 .. k-1` are done, started
from the accumulator `res0`. -/
structure MulInv (x : Nat) (vec2 : List Nat) (i : Nat) (res0 : List Nat) (k : Nat)
    (st : List Nat × Nat) : Prop where
  len_eq : st.1.length = res0.length
  bounded : Bounded st.1
  carry_lt : st.2 < BASE
  above : ∀ p, i + k ≤ p → st.1.getD p 0 = res0.getD p 0
  val : value st.1 + st.2 * BASE ^ (i + k) = value res0 + x * value (vec2.take k) * BASE ^ i

/-- Invariant of the outer loop once rows `0 .. i-1` are done. -/
structure RowInv (vec1 vec2 : List Nat) (i : Nat) (res : List Nat) : Prop where
  len_eq : res.length = vec1.length + vec2.length
  bounded : Bounded res
  zero_above : ∀ p, i + vec2.length ≤ p → res.getD p 0 = 0
  val : value res = value (vec1.take i) * value vec2

/-! ## Intermediate states, for the overflow claims -/

/-- The state `(sum, carry)` of `operator+` when block `k` is about to be processed
(`k <= max_size`; at `k = max_size` both loops are over): blocks below `min_size` go
through the first loop, the others through the second. -/
def add_state (n1 n2 : List Nat) (k : Nat) : List Nat × Nat :=
  let min_size := if n1.length ≤ n2.length then n1.length else n2.length
  let max_size := if n1.length ≥ n2.length then n1.length else n2.length
  let st := (List.range (min k min_size)).foldl (add_step_both n1 n2)
    (List.replicate (max_size + 1) 0, 0)
  ((List.range (k - min_size)).map (min_size + ·)).foldl (add_step_rest n1 n2) st

/-- The accumulator `result` of `multiply_standard` after `i` rows. -/
def standard_rows (vec1 vec2 : List Nat) (i : Nat) : List Nat :=
  (List.range i).foldl (standard_row vec1 vec2)
    (List.replicate (vec1.length + vec2.length) 0)

/-- The accumulator `result` of `multiply_standard_optimized` after `i` rows. -/
def optimized_rows (vec1 vec2 : List Nat) (i : Nat) : List Nat :=
  (List.range i).foldl (optimized_row vec1 vec2)
    (List.replicate (vec1.length + vec2.length) 0)

/-- The state `(result, carry)` of `multiply_standard` in row `i` when column `j` is
about to be processed (at `j = size2` the inner loop is over). -/
def inner_state (vec1 vec2 : List Nat) (i j : Nat) : List Nat × Nat :=
  (List.range j).foldl (mul_step (vec1.getD i 0) vec2 i) (standard_rows vec1 vec2 i, 0)

/-! ## Recursion depth -/

/-- The nested calls of `multiply_karatsuba(a, b)` go at most `d` deep: `d + 1` frames
(the call itself and `d` levels of calls below it) are enough for the call to return. -/
def karatsuba_depth_le (a b : List Nat) (d : Nat) : Prop :=
  (multiply_karatsuba (d + 1) a b).isSome = true

/-- The nested calls of `multiply_karatsuba_optimized(a, b)` go at most `d` deep. -/
def karatsuba_optimized_depth_le (a b : List Nat) (d : Nat) : Prop :=
  (multiply_karatsuba_optimized (d + 1) a b).isSome = true

/-! ## The text `to_string` is to produce -/

/-- A lower block as `vector_to_string` renders it: its decimal digits, left-padded with
`'0'` to `EXPONENT` characters. -/
def padded_block (x : Nat) : List Char :=
  List.replicate (EXPONENT - (u64_to_string x).length) '0' ++ u64_to_string x

/-- The lower blocks (least significant first) rendered one after the other, the most
significant of them first. -/
def padded_blocks : List Nat → List Char
  | [] => []
  | x :: xs => padded_blocks xs ++ padded_block x

/-- The last `e` decimal digits of `x`, most significant first. -/
def fixed_width : Nat → Nat → List Char
  | 0, _ => []
  | e + 1, x => fixed_width e (x / 10) ++ [Nat.digitChar (x % 10)]

/-! ## `main.cpp`: Fibonacci numbers by repeated squaring -/

/-- The 2x2 matrix of `BigInt`s of `main.cpp`: a `std::vector<std::vector<BigInt>>` that
is only ever built with two rows of two entries, so every `at(0)`, `at(1)` succeeds. -/
structure Matrix where
  m00 : List Nat
  m01 : List Nat
  m10 : List Nat
  m11 : List Nat

/-- The function `square_matrix`; the five products go through `operator*` and need its
recursion budget. -/
def square_matrix (fuel : Nat) (matrix : Matrix) : Option Matrix :=
  (operator_mul fuel matrix.m01 matrix.m10).bind fun partial_0_1_1_0 =>
  (operator_mul fuel matrix.m00 matrix.m01).bind fun partial_0_0_0_1 =>
  (operator_mul fuel matrix.m01 matrix.m11).bind fun partial_0_1_1_1 =>
  let sum := operator_add partial_0_0_0_1 partial_0_1_1_1
  (operator_mul fuel matrix.m00 matrix.m00).bind fun square_0_0 =>
  (operator_mul fuel matrix.m11 matrix.m11).bind fun square_1_1 =>
  some
    { m00 := operator_add square_0_0 partial_0_1_1_0
      m01 := sum
      m10 := sum
      m11 := operator_add partial_0_1_1_0 square_1_1 }

/-- The loop of `matrix_fib` after `k` iterations (how many are run depends on the
clock): the matrix and the counter `i`, an `int` that is taken not to overflow (it does
not in the first 30 iterations). Every iteration prints `i - 1` and the entry
`matrix.at(1).at(1)`. -/
def matrix_fib_loop (fuel : Nat) : Nat → Option (Matrix × Nat)
  | 0 =>
    some
      ({ m00 := set_string_number ['1']
         m01 := set_string_number ['1']
         m10 := set_string_number ['1']
         m11 := set_string_number ['0'] }, 1)
  | k + 1 =>
    (matrix_fib_loop fuel k).bind fun st =>
    (square_matrix fuel st.1).bind fun matrix =>
    some (matrix, st.2 * 2)

/-! ## Invariant of the loop of `set_string_number` -/

/-- Invariant of the loop of `set_string_number` once `j` characters are done, for a
vector of `len` blocks: where the cursor is, how large the block under the cursor can
be, and that the blocks above it are still zero. -/
structure ParseInv (len j : Nat) (st : ParseState) : Prop where
  len_eq : st.vector_number.length = len
  cursor : st.vector_index * 18 + st.position = j
  pos_le : st.position ≤ 18
  pos_pos : j = 0 ∨ 1 ≤ st.position
  current : st.vector_number.getD st.vector_index 0 ≤ 10 ^ st.position + 4096 * st.position
  above : ∀ p, st.vector_index < p → st.vector_number.getD p 0 = 0

/-! ## The branches of `multiply_karatsuba_optimized` -/

/-- The split point of `multiply_karatsuba_optimized`: `(max_size + 1) / 2`, lowered to
`min_size` when it is above it. -/
def karatsuba_split (vec1 vec2 : List Nat) : Nat :=
  let max_size := max vec1.length vec2.length
  let min_size := min vec1.length vec2.length
  let split := (max_size + 1) / 2
  if split > min_size then min_size else split

/-- The flag `a_high_zero` (for `vec1`) or `b_high_zero` (for `vec2`) of
`multiply_karatsuba_optimized`: the high part of `vec`, cut at `split`, is the single
block `0` or is empty. -/
def high_zero (vec : List Nat) (split : Nat) : Prop :=
  (create_subrange vec split vec.length).length = 1 ∧
      (create_subrange vec split vec.length).getD 0 0 = 0 ∨
    (create_subrange vec split vec.length).length = 0

instance (vec : List Nat) (split : Nat) : Decidable (high_zero vec split) := by
  unfold high_zero; infer_instance

/-- The branch `if (a_high_zero && b_high_zero)` of `multiply_karatsuba_optimized`: the
function calls itself on the low parts alone and returns that result. -/
def karatsuba_low_parts_alone (fuel : Nat) (vec1 vec2 : List Nat) : Option (List Nat) :=
  multiply_karatsuba_optimized fuel
    (create_subrange vec1 0 (karatsuba_split vec1 vec2))
    (create_subrange vec2 0 (karatsuba_split vec1 vec2))

/-- The other branch of `multiply_karatsuba_optimized`: the products `z0`, `z2`, `z1`
are computed and the function returns `multiply_standard_optimized(n1, n2)`. -/
def karatsuba_three_products (fuel : Nat) (vec1 vec2 : List Nat) : Option (List Nat) :=
  let split := karatsuba_split vec1 vec2
  let a_low := create_subrange vec1 0 split
  let a_high := create_subrange vec1 split vec1.length
  let b_low := create_subrange vec2 0 split
  let b_high := create_subrange vec2 split vec2.length
  (multiply_karatsuba_optimized fuel a_low b_low).bind fun _z0 =>
  (if high_zero vec1 split ∨ high_zero vec2 split then some (set_string_number ['0'])
    else multiply_karatsuba_optimized fuel a_high b_high).bind fun _z2 =>
  let a_sum := operator_add a_low a_high
  let b_sum := operator_add b_low b_high
  (multiply_karatsuba_optimized fuel a_sum b_sum).bind fun _z1 =>
  some (multiply_standard_optimized vec1 vec2)

/-! ## Basic facts about `value`, `Bounded` and block updates -/

theorem BASE_pos : 0 < BASE := by decide

theorem BASE_lt_U64 : 2 * BASE < U64 := by decide

theorem value_append (l1 l2 : List Nat) :
    value (l1 ++ l2) = value l1 + BASE ^ l1.length * value l2 := by
  induction l1 with
  | nil => simp [value]
  | cons x xs ih =>
    show x + BASE * value (xs ++ l2) = x + BASE * value xs + BASE ^ (xs.length + 1) * value l2
    rw [ih, pow_succ]
    ring

theorem value_replicate_zero (n : Nat) : value (List.replicate n 0) = 0 := by
  induction n with
  | zero => rfl
  | succ n ih => simp [List.replicate_succ, value, ih]

theorem value_eq_ofDigits (l : List Nat) : value l = Nat.ofDigits BASE l := by
  induction l with
  | nil => rfl
  | cons x xs ih => rw [value, Nat.ofDigits_cons, ih]

theorem getD_set (l : List Nat) (k p x : Nat) :
    (l.set k x).getD p 0 = if p = k ∧ k < l.length then x else l.getD p 0 := by
  simp only [List.getD_eq_getElem?_getD, List.getElem?_set]
  by_cases h : k = p
  · subst h
    by_cases h2 : k < l.length
    · simp [h2]
    · have : l[k]? = none := List.getElem?_eq_none (by omega)
      simp [h2, this]
  · have h3 : ¬ p = k := fun e => h e.symm
    simp [h, h3]

theorem getD_of_length_le (l : List Nat) (p : Nat) (h : l.length ≤ p) : l.getD p 0 = 0 := by
  simp [List.getD_eq_getElem?_getD, List.getElem?_eq_none h]

theorem getD_replicate_zero (n p : Nat) : (List.replicate n 0).getD p 0 = 0 := by
  simp only [List.getD_eq_getElem?_getD, List.getElem?_replicate]
  split <;> rfl

theorem value_take_succ (l : List Nat) (k : Nat) :
    value (l.take (k + 1)) = value (l.take k) + l.getD k 0 * BASE ^ k := by
  rw [List.take_succ, value_append, List.getD_eq_getElem?_getD]
  by_cases h : k < l.length
  · rw [List.getElem?_eq_getElem h]
    simp only [Option.toList, value, Option.getD_some, List.length_take]
    rw [Nat.min_eq_left (Nat.le_of_lt h)]
    ring
  · rw [List.getElem?_eq_none (by omega)]
    simp [value]

theorem value_set (l : List Nat) (k x : Nat) (h : k < l.length) :
    value (l.set k x) + l.getD k 0 * BASE ^ k = value l + x * BASE ^ k := by
  have e1 : l.set k x = l.take k ++ x :: l.drop (k + 1) := by
    rw [List.set_eq_take_append_cons_drop, if_pos h]
  have e2 : l = l.take k ++ l.getD k 0 :: l.drop (k + 1) := by
    have e3 : l.drop k = l.getD k 0 :: l.drop (k + 1) := by
      rw [List.getD_eq_getElem?_getD, List.getElem?_eq_getElem h]
      simp
    conv_lhs => rw [← List.take_append_drop k l, e3]
  have hl : (l.take k).length = k := by
    rw [List.length_take]; omega
  rw [e1, value_append]
  conv_rhs => rw [e2, value_append]
  simp only [value, hl]
  ring

theorem value_set_of_zero (l : List Nat) (k x : Nat) (h : k < l.length)
    (h0 : l.getD k 0 = 0) : value (l.set k x) = value l + x * BASE ^ k := by
  have := value_set l k x h
  rw [h0] at this
  simpa using this

theorem Bounded_set (l : List Nat) (k x : Nat) (hl : Bounded l) (hx : x < BASE) :
    Bounded (l.set k x) := by
  intro y hy
  rcases List.mem_or_eq_of_mem_set hy with h | h
  · exact hl y h
  · exact h ▸ hx

theorem Bounded_replicate_zero (n : Nat) : Bounded (List.replicate n 0) := by
  intro y hy
  rw [List.eq_of_mem_replicate hy]
  exact BASE_pos

theorem Bounded_getD (l : List Nat) (hl : Bounded l) (p : Nat) : l.getD p 0 < BASE := by
  rw [List.getD_eq_getElem?_getD]
  by_cases h : p < l.length
  · rw [List.getElem?_eq_getElem h]
    exact hl _ (List.getElem_mem h)
  · rw [List.getElem?_eq_none (by omega)]
    exact BASE_pos

theorem value_lt_pow (l : List Nat) (hl : Bounded l) : value l < BASE ^ l.length := by
  induction l with
  | nil => simp [value]
  | cons x xs ih =>
    have hx : x < BASE := hl x (List.mem_cons_self _ _)
    have hxs : value xs < BASE ^ xs.length :=
      ih (fun y hy => hl y (List.mem_cons_of_mem _ hy))
    simp only [value, List.length_cons, pow_succ]
    nlinarith [BASE_pos]

theorem foldl_range_succ {σ : Type} (f : σ → Nat → σ) (s : σ) (n : Nat) :
    (List.range (n + 1)).foldl f s = f ((List.range n).foldl f s) n := by
  rw [List.range_succ, List.foldl_append]
  rfl

/-! ## `operator+`: loop invariant -/

theorem AddInv_init (n1 n2 : List Nat) (len : Nat) :
    AddInv n1 n2 len 0 (List.replicate len 0, 0) where
  len_eq := by simp
  zero_above := fun p _ => getD_replicate_zero len p
  carry_le := Nat.zero_le _
  bounded := Bounded_replicate_zero len
  val := by simp [value_replicate_zero, value]

theorem AddInv_step (n1 n2 : List Nat) (len k : Nat) (st : List Nat × Nat)
    (h1 : Bounded n1) (h2 : Bounded n2) (hk : k < len) (inv : AddInv n1 n2 len k st) :
    AddInv n1 n2 len (k + 1) (add_step_both n1 n2 st k) := by
  have ha := Bounded_getD n1 h1 k
  have hb := Bounded_getD n2 h2 k
  have hc := inv.carry_le
  have hB := BASE_lt_U64
  have hpos := BASE_pos
  have hs : (n1.getD k 0 + n2.getD k 0 + st.2) % U64 = n1.getD k 0 + n2.getD k 0 + st.2 :=
    Nat.mod_eq_of_lt (by omega)
  have hlen : k < st.1.length := by rw [inv.len_eq]; exact hk
  unfold add_step_both
  simp only [hs]
  refine ⟨?_, ?_, ?_, ?_, ?_⟩
  · simp [inv.len_eq]
  · intro p hp
    rw [getD_set, if_neg (by omega)]
    exact inv.zero_above p (by omega)
  · show (n1.getD k 0 + n2.getD k 0 + st.2) / BASE ≤ 1
    have : (n1.getD k 0 + n2.getD k 0 + st.2) / BASE < 2 :=
      Nat.div_lt_of_lt_mul (by omega)
    omega
  · exact Bounded_set _ _ _ inv.bounded (Nat.mod_lt _ hpos)
  · show value (st.1.set k ((n1.getD k 0 + n2.getD k 0 + st.2) % BASE))
        + (n1.getD k 0 + n2.getD k 0 + st.2) / BASE * BASE ^ (k + 1)
        = value (n1.take (k + 1)) + value (n2.take (k + 1))
    rw [value_set_of_zero _ _ _ hlen (inv.zero_above k (Nat.le_refl k)),
      value_take_succ, value_take_succ]
    have hv := inv.val
    have hmd := Nat.mod_add_div (n1.getD k 0 + n2.getD k 0 + st.2) BASE
    generalize (n1.getD k 0 + n2.getD k 0 + st.2) % BASE = r at *
    generalize (n1.getD k 0 + n2.getD k 0 + st.2) / BASE = q at *
    have : r * BASE ^ k + q * BASE ^ (k + 1)
        = (n1.getD k 0 + n2.getD k 0 + st.2) * BASE ^ k := by
      rw [← hmd, pow_succ]; ring
    nlinarith [this, hv]

theorem add_step_rest_eq (n1 n2 : List Nat) (st : List Nat × Nat) (j : Nat)
    (h1 : Bounded n1) (h2 : Bounded n2) (h0 : st.1.getD j 0 = 0)
    (hj : (if n1.length ≤ n2.length then n1.length else n2.length) ≤ j) :
    add_step_rest n1 n2 st j = add_step_both n1 n2 st j := by
  have ha := Bounded_getD n1 h1 j
  have hb := Bounded_getD n2 h2 j
  have hB := BASE_lt_U64
  unfold add_step_rest add_step_both
  by_cases hge : n1.length ≥ n2.length
  · have hz : n2.getD j 0 = 0 := getD_of_length_le n2 j (by split at hj <;> omega)
    simp only [hge, if_true, h0, hz, Nat.zero_add, Nat.add_zero]
    rw [Nat.mod_eq_of_lt (show n1.getD j 0 < U64 by omega)]
  · have hz : n1.getD j 0 = 0 := getD_of_length_le n1 j (by split at hj <;> omega)
    simp only [hge, if_false, h0, hz, Nat.zero_add]
    rw [Nat.mod_eq_of_lt (show n2.getD j 0 < U64 by omega)]

theorem AddInv_first_loop (n1 n2 : List Nat) (len : Nat) (h1 : Bounded n1) (h2 : Bounded n2)
    (k : Nat) (hk : k ≤ len) :
    AddInv n1 n2 len k
      ((List.range k).foldl (add_step_both n1 n2) (List.replicate len 0, 0)) := by
  induction k with
  | zero => exact AddInv_init n1 n2 len
  | succ k ih =>
    rw [foldl_range_succ]
    exact AddInv_step n1 n2 len k _ h1 h2 (by omega) (ih (by omega))

theorem AddInv_second_loop (n1 n2 : List Nat) (len m0 : Nat) (st : List Nat × Nat)
    (h1 : Bounded n1) (h2 : Bounded n2)
    (hm0 : (if n1.length ≤ n2.length then n1.length else n2.length) ≤ m0)
    (inv : AddInv n1 n2 len m0 st) (k : Nat) (hk : m0 + k ≤ len) :
    AddInv n1 n2 len (m0 + k)
      (((List.range k).map (m0 + ·)).foldl (add_step_rest n1 n2) st) := by
  induction k with
  | zero => simpa using inv
  | succ k ih =>
    have ih2 := ih (by omega)
    rw [List.range_succ, List.map_append, List.foldl_append]
    simp only [List.map_cons, List.map_nil, List.foldl_cons, List.foldl_nil]
    rw [add_step_rest_eq n1 n2 _ _ h1 h2 (ih2.zero_above _ (Nat.le_refl _)) (by omega)]
    exact AddInv_step n1 n2 len (m0 + k) _ h1 h2 (by omega) ih2

theorem AddInv_add_loops (n1 n2 : List Nat) (h1 : Bounded n1) (h2 : Bounded n2) :
    AddInv n1 n2 (max n1.length n2.length + 1) (max n1.length n2.length) (add_loops n1 n2) := by
  have hmax : (if n1.length ≥ n2.length then n1.length else n2.length)
      = max n1.length n2.length := by split <;> omega
  unfold add_loops
  simp only [hmax]
  have hfirst := AddInv_first_loop n1 n2 (max n1.length n2.length + 1) h1 h2
    (if n1.length ≤ n2.length then n1.length else n2.length) (by split <;> omega)
  have hsecond := AddInv_second_loop n1 n2 (max n1.length n2.length + 1)
    (if n1.length ≤ n2.length then n1.length else n2.length) _ h1 h2 (Nat.le_refl _) hfirst
    (max n1.length n2.length - (if n1.length ≤ n2.length then n1.length else n2.length))
    (by split <;> omega)
  have e : (if n1.length ≤ n2.length then n1.length else n2.length)
      + (max n1.length n2.length - (if n1.length ≤ n2.length then n1.length else n2.length))
      = max n1.length n2.length := by split <;> omega
  rw [e] at hsecond
  exact hsecond

/-! ## Top blocks -/

theorem exists_concat (l : List Nat) (h : l ≠ []) : ∃ ys a, l = ys ++ [a] := by
  rcases List.eq_nil_or_concat l with h0 | ⟨ys, a, e⟩
  · exact absurd h0 h
  · exact ⟨ys, a, by simpa using e⟩

theorem pow_le_value (l : List Nat) (h : l ≠ []) (h0 : l.getLast? ≠ some 0) :
    BASE ^ (l.length - 1) ≤ value l := by
  obtain ⟨ys, a, rfl⟩ := exists_concat l h
  have ha : a ≠ 0 := by
    intro e
    apply h0
    simp [e]
  rw [value_append]
  simp only [List.length_append, List.length_singleton, Nat.add_sub_cancel, value]
  have : 1 ≤ a := Nat.pos_of_ne_zero ha
  nlinarith [Nat.pow_pos (n := ys.length) BASE_pos]

theorem value_lt_of_last_zero (l : List Nat) (hb : Bounded l) (h0 : l.getLast? = some 0) :
    value l < BASE ^ (l.length - 1) := by
  obtain ⟨ys, rfl⟩ := List.getLast?_eq_some_iff.mp h0
  rw [value_append]
  simp only [List.length_append, List.length_singleton, Nat.add_sub_cancel, value]
  have := value_lt_pow ys (fun y hy => hb y (List.mem_append_left _ hy))
  simpa using this

theorem Bounded_take (l : List Nat) (n : Nat) (hb : Bounded l) : Bounded (l.take n) :=
  fun y hy => hb y (List.mem_of_mem_take hy)

theorem Bounded_drop (l : List Nat) (n : Nat) (hb : Bounded l) : Bounded (l.drop n) :=
  fun y hy => hb y (List.mem_of_mem_drop hy)

theorem Bounded_dropLast (l : List Nat) (hb : Bounded l) : Bounded l.dropLast := by
  rw [List.dropLast_eq_take]
  exact Bounded_take l _ hb

theorem eraseIdx_last (l : List Nat) (n : Nat) (h : l.length = n + 1) :
    l.eraseIdx n = l.take n := by
  rw [List.eraseIdx_eq_take_drop_succ, List.drop_of_length_le (by omega), List.append_nil]

theorem take_set_self (l : List Nat) (n x : Nat) : (l.set n x).take n = l.take n := by
  rw [List.set_eq_take_append_cons_drop]
  split
  · next h =>
    rw [List.take_append_of_le_length (by rw [List.length_take]; omega),
      List.take_take, Nat.min_self]
  · rfl

theorem value_take_last (l : List Nat) (n : Nat) (h : l.length = n + 1)
    (h0 : l.getD n 0 = 0) : value (l.take n) = value l := by
  have := value_take_succ l n
  rw [List.take_of_length_le (by omega), h0] at this
  simpa using this.symm

/-- A canonical sequence is determined by the number it denotes. -/
theorem Canonical_eq_of_value_eq (a b : List Nat) (ha : Canonical a) (hb : Canonical b)
    (h : value a = value b) : a = b := by
  have key : ∀ l : List Nat, Canonical l →
      l = if value l = 0 then [0] else Nat.digits BASE (value l) := by
    intro l hl
    obtain ⟨hne, hbd, htop⟩ := hl
    by_cases h0 : l.getLast? = some 0
    · have e := htop h0
      subst e
      simp [value]
    · have hv : value l ≠ 0 := by
        have := pow_le_value l hne h0
        have := Nat.pow_pos (n := l.length - 1) BASE_pos
        omega
      rw [if_neg hv, value_eq_ofDigits]
      refine (Nat.digits_ofDigits BASE (by decide) l hbd ?_).symm
      intro hne2 e
      apply h0
      rw [List.getLast?_eq_getLast l hne2, e]
  rw [key a ha, key b hb, h]

/-! ## `operator+`: result -/

theorem add_step_both_length (n1 n2 : List Nat) (st : List Nat × Nat) (i : Nat) :
    (add_step_both n1 n2 st i).1.length = st.1.length := by
  simp [add_step_both]

theorem add_step_rest_length (n1 n2 : List Nat) (st : List Nat × Nat) (i : Nat) :
    (add_step_rest n1 n2 st i).1.length = st.1.length := by
  simp [add_step_rest]

theorem foldl_length_inv {σ : Type} (f : σ → Nat → σ) (len : σ → Nat)
    (hf : ∀ s i, len (f s i) = len s) (l : List Nat) (s : σ) :
    len (l.foldl f s) = len s := by
  induction l generalizing s with
  | nil => rfl
  | cons x xs ih => rw [List.foldl_cons, ih, hf]

theorem add_loops_length (n1 n2 : List Nat) :
    (add_loops n1 n2).1.length = max n1.length n2.length + 1 := by
  have hmax : (if n1.length ≥ n2.length then n1.length else n2.length)
      = max n1.length n2.length := by split <;> omega
  unfold add_loops
  simp only [hmax]
  rw [foldl_length_inv (add_step_rest n1 n2) (fun st => st.1.length)
        (add_step_rest_length n1 n2),
    foldl_length_inv (add_step_both n1 n2) (fun st => st.1.length)
        (add_step_both_length n1 n2)]
  simp

/-- The result of `operator+` has `max_size` or `max_size + 1` blocks. -/
theorem operator_add_length (n1 n2 : List Nat) :
    max n1.length n2.length ≤ (operator_add n1 n2).length ∧
      (operator_add n1 n2).length ≤ max n1.length n2.length + 1 := by
  have hmax : (if n1.length ≥ n2.length then n1.length else n2.length)
      = max n1.length n2.length := by split <;> omega
  have hl := add_loops_length n1 n2
  unfold operator_add
  simp only [hmax]
  split
  · rw [List.length_eraseIdx]
    simp only [List.length_set, hl]
    simp
  · simp only [List.length_set, hl]
    omega

/-- What `operator+` returns, in terms of the state after the loops. -/
theorem operator_add_eq (n1 n2 : List Nat) (h1 : Bounded n1) (h2 : Bounded n2) :
    operator_add n1 n2 =
      if (add_loops n1 n2).2 = 0 then (add_loops n1 n2).1.take (max n1.length n2.length)
      else (add_loops n1 n2).1.set (max n1.length n2.length) (add_loops n1 n2).2 := by
  have hmax : (if n1.length ≥ n2.length then n1.length else n2.length)
      = max n1.length n2.length := by split <;> omega
  have inv := AddInv_add_loops n1 n2 h1 h2
  have hz := inv.zero_above _ (Nat.le_refl _)
  have hc := inv.carry_le
  have hl := inv.len_eq
  have hc64 : (add_loops n1 n2).2 % U64 = (add_loops n1 n2).2 :=
    Nat.mod_eq_of_lt (by have := BASE_lt_U64; have := BASE_pos; omega)
  have hget : ((add_loops n1 n2).1.set (max n1.length n2.length) (add_loops n1 n2).2).getD
      (max n1.length n2.length) 0 = (add_loops n1 n2).2 := by
    rw [getD_set]
    simp [hl]
  unfold operator_add
  simp only [hmax, hz, Nat.zero_add, hc64, List.length_set, hl, Nat.add_sub_cancel, hget]
  by_cases h0 : (add_loops n1 n2).2 = 0
  · rw [if_pos h0, if_pos h0, eraseIdx_last _ _ (by simp [hl])]
    rw [h0, take_set_self]
  · rw [if_neg h0, if_neg h0]

theorem operator_add_value (n1 n2 : List Nat) (h1 : Bounded n1) (h2 : Bounded n2) :
    value (operator_add n1 n2) = value n1 + value n2 := by
  have inv := AddInv_add_loops n1 n2 h1 h2
  have hz := inv.zero_above _ (Nat.le_refl _)
  have hv := inv.val
  rw [List.take_of_length_le (Nat.le_max_left _ _),
    List.take_of_length_le (Nat.le_max_right _ _)] at hv
  rw [operator_add_eq n1 n2 h1 h2]
  split
  · next h0 =>
    rw [value_take_last _ _ inv.len_eq hz]
    rw [h0] at hv
    simpa using hv
  · rw [value_set_of_zero _ _ _ (by rw [inv.len_eq]; omega) hz]
    exact hv

theorem operator_add_Bounded (n1 n2 : List Nat) (h1 : Bounded n1) (h2 : Bounded n2) :
    Bounded (operator_add n1 n2) := by
  have inv := AddInv_add_loops n1 n2 h1 h2
  rw [operator_add_eq n1 n2 h1 h2]
  split
  · exact Bounded_take _ _ inv.bounded
  · exact Bounded_set _ _ _ inv.bounded
      (by have := inv.carry_le; have : 1 < BASE := by decide
          omega)

theorem operator_add_Canonical (n1 n2 : List Nat) (h1 : Canonical n1) (h2 : Canonical n2) :
    Canonical (operator_add n1 n2) := by
  obtain ⟨hne1, hb1, ht1⟩ := h1
  obtain ⟨hne2, hb2, ht2⟩ := h2
  have inv := AddInv_add_loops n1 n2 hb1 hb2
  have hbd := operator_add_Bounded n1 n2 hb1 hb2
  have hval := operator_add_value n1 n2 hb1 hb2
  have hlen := operator_add_length n1 n2
  have hpos1 : 0 < n1.length := List.length_pos.mpr hne1
  have hne : operator_add n1 n2 ≠ [] := by
    intro e
    rw [e] at hlen
    have := Nat.le_max_left n1.length n2.length
    have := hlen.1
    simp only [List.length_nil] at this
    omega
  refine ⟨hne, hbd, ?_⟩
  intro hlast
  -- the top block is zero: the carry was dropped and both operands are `[0]`
  have hlt := value_lt_of_last_zero _ hbd hlast
  have hsmall : ∀ l : List Nat, l ≠ [] → (l.getLast? = some 0 → l = [0]) →
      l.length = max n1.length n2.length → value l ≤ value (operator_add n1 n2) →
      (operator_add n1 n2).length = max n1.length n2.length →
      max n1.length n2.length = 1 := by
    intro l hl ht hlen2 hle hres
    by_cases h0 : l.getLast? = some 0
    · rw [← hlen2, ht h0]; rfl
    · have := pow_le_value l hl h0
      rw [hlen2] at this
      rw [hres] at hlt
      omega
  have hreslen : (operator_add n1 n2).length = max n1.length n2.length := by
    rw [operator_add_eq n1 n2 hb1 hb2] at hlast ⊢
    split
    · rw [List.length_take, inv.len_eq]; omega
    · next hc =>
      exfalso
      rw [if_neg hc] at hlast
      rw [List.getLast?_eq_getElem?, List.length_set, inv.len_eq, Nat.add_sub_cancel,
        List.getElem?_set] at hlast
      simp [inv.len_eq] at hlast
      exact hc hlast
  have hmax1 : max n1.length n2.length = 1 := by
    rcases Nat.le_total n2.length n1.length with hle | hle
    · exact hsmall n1 hne1 ht1 (by omega) (by omega) hreslen
    · exact hsmall n2 hne2 ht2 (by omega) (by omega) hreslen
  rw [hmax1] at hreslen
  match hres : operator_add n1 n2, hreslen, hlast with
  | [x], _, hl =>
    simp at hl
    rw [hl]

/-! ## `operator+`: commutativity and the zero operand -/

theorem add_step_both_comm (n1 n2 : List Nat) : add_step_both n1 n2 = add_step_both n2 n1 := by
  funext st i
  unfold add_step_both
  rw [Nat.add_comm (n1.getD i 0) (n2.getD i 0)]

theorem add_step_rest_comm (n1 n2 : List Nat) (h : n1.length ≠ n2.length) :
    add_step_rest n1 n2 = add_step_rest n2 n1 := by
  funext st j
  unfold add_step_rest
  rcases Nat.lt_or_gt_of_ne h with hlt | hgt
  · rw [if_neg (show ¬ n1.length ≥ n2.length by omega),
      if_pos (show n2.length ≥ n1.length by omega)]
  · rw [if_pos (show n1.length ≥ n2.length by omega),
      if_neg (show ¬ n2.length ≥ n1.length by omega)]

theorem add_loops_comm (n1 n2 : List Nat) : add_loops n1 n2 = add_loops n2 n1 := by
  unfold add_loops
  rw [add_step_both_comm n1 n2]
  by_cases h : n1.length = n2.length
  · simp [h]
  · rw [add_step_rest_comm n1 n2 h]
    rcases Nat.lt_or_gt_of_ne h with hlt | hgt
    · simp only [if_pos (show n1.length ≤ n2.length by omega),
        if_neg (show ¬ n1.length ≥ n2.length by omega),
        if_neg (show ¬ n2.length ≤ n1.length by omega),
        if_pos (show n2.length ≥ n1.length by omega)]
    · simp only [if_neg (show ¬ n1.length ≤ n2.length by omega),
        if_pos (show n1.length ≥ n2.length by omega),
        if_pos (show n2.length ≤ n1.length by omega),
        if_neg (show ¬ n2.length ≥ n1.length by omega)]

theorem Bounded_eq_of_value_eq (a b : List Nat) (hlen : a.length = b.length)
    (ha : Bounded a) (hb : Bounded b) (h : value a = value b) : a = b := by
  induction a generalizing b with
  | nil =>
    cases b with
    | nil => rfl
    | cons y ys => simp at hlen
  | cons x xs ih =>
    cases b with
    | nil => simp at hlen
    | cons y ys =>
      have hx : x < BASE := ha x (List.mem_cons_self _ _)
      have hy : y < BASE := hb y (List.mem_cons_self _ _)
      simp only [value] at h
      have h1 : x = y := by
        have e1 : (x + BASE * value xs) % BASE = x := by
          rw [Nat.add_mul_mod_self_left, Nat.mod_eq_of_lt hx]
        have e2 : (y + BASE * value ys) % BASE = y := by
          rw [Nat.add_mul_mod_self_left, Nat.mod_eq_of_lt hy]
        rw [← e1, ← e2, h]
      have h2 : value xs = value ys := by
        subst h1
        have : BASE * value xs = BASE * value ys := by omega
        exact Nat.eq_of_mul_eq_mul_left BASE_pos this
      rw [h1, ih ys (by simpa using hlen) (fun z hz => ha z (List.mem_cons_of_mem _ hz))
        (fun z hz => hb z (List.mem_cons_of_mem _ hz)) h2]

theorem set_string_number_zero : set_string_number ['0'] = [0] := by decide

theorem set_string_number_one : set_string_number ['1'] = [1] := by decide

theorem operator_add_zero_right (a : List Nat) (hne : a ≠ []) (hb : Bounded a) :
    operator_add a [0] = a := by
  have hb0 : Bounded [0] := by decide
  have inv := AddInv_add_loops a [0] hb hb0
  have hpos : 0 < a.length := List.length_pos.mpr hne
  have hmax : max a.length ([0] : List Nat).length = a.length := by
    simp only [List.length_singleton]; omega
  have hv := inv.val
  rw [List.take_of_length_le (Nat.le_max_left _ _),
    List.take_of_length_le (Nat.le_max_right _ _)] at hv
  have hc : (add_loops a [0]).2 = 0 := by
    rcases Nat.eq_zero_or_pos (add_loops a [0]).2 with h | h
    · exact h
    · exfalso
      have hlt := value_lt_pow a hb
      rw [hmax] at hv
      have hval0 : value [0] = 0 := by decide
      rw [hval0] at hv
      have : BASE ^ a.length ≤ (add_loops a [0]).2 * BASE ^ a.length :=
        Nat.le_mul_of_pos_left _ h
      omega
  have hres : operator_add a [0] = (add_loops a [0]).1.take a.length := by
    rw [operator_add_eq a [0] hb hb0, if_pos hc, hmax]
  apply Bounded_eq_of_value_eq
  · rw [hres, List.length_take, inv.len_eq, hmax]; omega
  · exact operator_add_Bounded a [0] hb hb0
  · exact hb
  · rw [operator_add_value a [0] hb hb0]
    show value a + (0 + BASE * 0) = value a
    omega

/-! ## `remove_leading_zeros` -/

theorem value_dropLast_of_last_zero (l : List Nat) (h0 : l.getLast? = some 0) :
    value l.dropLast = value l := by
  obtain ⟨ys, rfl⟩ := List.getLast?_eq_some_iff.mp h0
  rw [List.dropLast_concat, value_append]
  simp [value]

theorem remove_leading_zeros_loop_value (fuel : Nat) (vec : List Nat) :
    value (remove_leading_zeros_loop fuel vec) = value vec := by
  induction fuel generalizing vec with
  | zero => rfl
  | succ fuel ih =>
    unfold remove_leading_zeros_loop
    split
    · next h => rw [ih, value_dropLast_of_last_zero vec h.2]
    · rfl

theorem remove_leading_zeros_loop_Bounded (fuel : Nat) (vec : List Nat) (hb : Bounded vec) :
    Bounded (remove_leading_zeros_loop fuel vec) := by
  induction fuel generalizing vec with
  | zero => exact hb
  | succ fuel ih =>
    unfold remove_leading_zeros_loop
    split
    · exact ih _ (Bounded_dropLast vec hb)
    · exact hb

theorem remove_leading_zeros_loop_ne_nil (fuel : Nat) (vec : List Nat) (hne : vec ≠ []) :
    remove_leading_zeros_loop fuel vec ≠ [] := by
  induction fuel generalizing vec with
  | zero => exact hne
  | succ fuel ih =>
    unfold remove_leading_zeros_loop
    split
    · next h =>
      apply ih
      intro e
      have := congrArg List.length e
      rw [List.length_dropLast] at this
      simp only [List.length_nil] at this
      omega
    · exact hne

/-- The loop of `remove_leading_zeros` stops because its condition fails, not because
the iteration bound is reached. -/
theorem remove_leading_zeros_loop_exit (fuel : Nat) (vec : List Nat)
    (hf : vec.length ≤ fuel + 1) :
    ¬ ((remove_leading_zeros_loop fuel vec).length > 1 ∧
        (remove_leading_zeros_loop fuel vec).getLast? = some 0) := by
  induction fuel generalizing vec with
  | zero =>
    unfold remove_leading_zeros_loop
    omega
  | succ fuel ih =>
    unfold remove_leading_zeros_loop
    split
    · apply ih
      rw [List.length_dropLast]
      omega
    · next h => exact h

theorem remove_leading_zeros_Canonical (vec : List Nat) (hne : vec ≠ []) (hb : Bounded vec) :
    Canonical (remove_leading_zeros vec) := by
  have h1 := remove_leading_zeros_loop_ne_nil vec.length vec hne
  have h2 := remove_leading_zeros_loop_Bounded vec.length vec hb
  have h3 := remove_leading_zeros_loop_exit vec.length vec (Nat.le_succ _)
  refine ⟨h1, h2, ?_⟩
  intro hlast
  unfold remove_leading_zeros at hlast ⊢
  match hr : remove_leading_zeros_loop vec.length vec with
  | [] => exact absurd hr h1
  | [x] =>
    rw [hr] at hlast
    simp at hlast
    rw [hlast]
  | x :: y :: zs =>
    rw [hr] at h3 hlast
    exact absurd ⟨by simp, hlast⟩ h3

theorem remove_leading_zeros_value (vec : List Nat) :
    value (remove_leading_zeros vec) = value vec :=
  remove_leading_zeros_loop_value vec.length vec

/-- A canonical sequence is left alone. -/
theorem remove_leading_zeros_of_Canonical (vec : List Nat) (h : Canonical vec) :
    remove_leading_zeros vec = vec :=
  Canonical_eq_of_value_eq _ _ (remove_leading_zeros_Canonical vec h.1 h.2.1) h
    (remove_leading_zeros_value vec)

/-! ## `multiply_standard`: the inner loop -/

theorem BASE_sq_le_U128 : BASE * BASE ≤ U128 := by decide

theorem BASE_lt_U64_one : BASE < U64 := by decide

/-- No step of the inner loop overflows: the 128-bit product is the exact one, and the
block and the carry narrowed to 64 bits are the exact remainder and quotient. -/
theorem mul_step_exact (x : Nat) (vec2 : List Nat) (i : Nat) (st : List Nat × Nat) (j : Nat)
    (hx : x < BASE) (h2 : Bounded vec2) (hb : Bounded st.1) (hc : st.2 < BASE) :
    mul_step x vec2 i st j =
      (st.1.set (i + j) ((x * vec2.getD j 0 + st.1.getD (i + j) 0 + st.2) % BASE),
        (x * vec2.getD j 0 + st.1.getD (i + j) 0 + st.2) / BASE) ∧
    (x * vec2.getD j 0 + st.1.getD (i + j) 0 + st.2) / BASE < BASE := by
  have hv := Bounded_getD vec2 h2 j
  have hr := Bounded_getD st.1 hb (i + j)
  have hpos := BASE_pos
  have hprod : x * vec2.getD j 0 ≤ (BASE - 1) * (BASE - 1) :=
    Nat.mul_le_mul (by omega) (by omega)
  have hsq : (BASE - 1) * (BASE - 1) + (BASE - 1) + (BASE - 1) < BASE * BASE := by decide
  have ht : x * vec2.getD j 0 + st.1.getD (i + j) 0 + st.2 < BASE * BASE := by omega
  have hq : (x * vec2.getD j 0 + st.1.getD (i + j) 0 + st.2) / BASE < BASE :=
    Nat.div_lt_of_lt_mul ht
  refine ⟨?_, hq⟩
  unfold mul_step
  have e1 : (x * vec2.getD j 0 + st.1.getD (i + j) 0 + st.2) % U128
      = x * vec2.getD j 0 + st.1.getD (i + j) 0 + st.2 :=
    Nat.mod_eq_of_lt (Nat.lt_of_lt_of_le ht BASE_sq_le_U128)
  simp only [e1]
  rw [Nat.mod_eq_of_lt (Nat.lt_trans (Nat.mod_lt _ hpos) BASE_lt_U64_one),
    Nat.mod_eq_of_lt (Nat.lt_trans hq BASE_lt_U64_one)]

theorem MulInv_step (x : Nat) (vec2 : List Nat) (i : Nat) (res0 : List Nat) (k : Nat)
    (st : List Nat × Nat) (hx : x < BASE) (h2 : Bounded vec2) (hk : i + k < res0.length)
    (inv : MulInv x vec2 i res0 k st) :
    MulInv x vec2 i res0 (k + 1) (mul_step x vec2 i st k) := by
  obtain ⟨he, hq⟩ := mul_step_exact x vec2 i st k hx h2 inv.bounded inv.carry_lt
  rw [he]
  have hlen : i + k < st.1.length := by rw [inv.len_eq]; exact hk
  refine ⟨?_, ?_, hq, ?_, ?_⟩
  · simp [inv.len_eq]
  · exact Bounded_set _ _ _ inv.bounded (Nat.mod_lt _ BASE_pos)
  · intro p hp
    show (st.1.set (i + k) _).getD p 0 = _
    rw [getD_set, if_neg (by omega)]
    exact inv.above p (by omega)
  · show value (st.1.set (i + k) ((x * vec2.getD k 0 + st.1.getD (i + k) 0 + st.2) % BASE))
        + (x * vec2.getD k 0 + st.1.getD (i + k) 0 + st.2) / BASE * BASE ^ (i + (k + 1))
        = value res0 + x * value (vec2.take (k + 1)) * BASE ^ i
    have hset := value_set st.1 (i + k)
      ((x * vec2.getD k 0 + st.1.getD (i + k) 0 + st.2) % BASE) hlen
    have hmd := Nat.mod_add_div (x * vec2.getD k 0 + st.1.getD (i + k) 0 + st.2) BASE
    have hv := inv.val
    rw [value_take_succ]
    generalize (x * vec2.getD k 0 + st.1.getD (i + k) 0 + st.2) % BASE = m at *
    generalize (x * vec2.getD k 0 + st.1.getD (i + k) 0 + st.2) / BASE = q at *
    generalize st.1.getD (i + k) 0 = r at *
    generalize vec2.getD k 0 = v at *
    generalize value (st.1.set (i + k) m) = new at *
    generalize value st.1 = old at *
    generalize value (vec2.take k) = V at *
    generalize value res0 = R at *
    have hP : BASE ^ (i + (k + 1)) = BASE ^ (i + k) * BASE := by
      rw [← Nat.add_assoc, pow_succ]
    have hP2 : BASE ^ (i + k) = BASE ^ i * BASE ^ k := pow_add _ _ _
    rw [hP]
    have h3 : m * BASE ^ (i + k) + BASE * q * BASE ^ (i + k)
        = x * v * BASE ^ (i + k) + r * BASE ^ (i + k) + st.2 * BASE ^ (i + k) := by
      have := congrArg (· * BASE ^ (i + k)) hmd
      simp only at this
      linarith [this]
    have h4 : x * (V + v * BASE ^ k) * BASE ^ i = x * V * BASE ^ i + x * v * BASE ^ (i + k) := by
      rw [hP2]; ring
    rw [h4]
    have h5 : q * (BASE ^ (i + k) * BASE) = BASE * q * BASE ^ (i + k) := by ring
    rw [h5]
    omega

theorem MulInv_init (x : Nat) (vec2 : List Nat) (i : Nat) (res0 : List Nat)
    (hb : Bounded res0) : MulInv x vec2 i res0 0 (res0, 0) where
  len_eq := rfl
  bounded := hb
  carry_lt := BASE_pos
  above := fun _ _ => rfl
  val := by simp [value]

theorem MulInv_loop (x : Nat) (vec2 : List Nat) (i : Nat) (res0 : List Nat)
    (hx : x < BASE) (h2 : Bounded vec2) (hb : Bounded res0) (k : Nat)
    (hk : i + k ≤ res0.length) :
    MulInv x vec2 i res0 k ((List.range k).foldl (mul_step x vec2 i) (res0, 0)) := by
  induction k with
  | zero => exact MulInv_init x vec2 i res0 hb
  | succ k ih =>
    rw [foldl_range_succ]
    exact MulInv_step x vec2 i res0 k _ hx h2 (by omega) (ih (by omega))

/-! ## `multiply_standard`: rows and result -/

theorem RowInv_init (vec1 vec2 : List Nat) :
    RowInv vec1 vec2 0 (List.replicate (vec1.length + vec2.length) 0) where
  len_eq := by simp
  bounded := Bounded_replicate_zero _
  zero_above := fun p _ => getD_replicate_zero _ p
  val := by simp [value_replicate_zero, value]

/-- What a row of `multiply_standard` does, given the state its inner loop ends in: the
last carry lands on a block that is still zero, and the addition does not wrap. -/
theorem standard_row_eq (vec1 vec2 res : List Nat) (i : Nat) (h1 : Bounded vec1)
    (h2 : Bounded vec2) (hi : i < vec1.length) (inv : RowInv vec1 vec2 i res) :
    standard_row vec1 vec2 res i =
      ((List.range vec2.length).foldl (mul_step (vec1.getD i 0) vec2 i) (res, 0)).1.set
        (i + vec2.length)
        ((List.range vec2.length).foldl (mul_step (vec1.getD i 0) vec2 i) (res, 0)).2 := by
  have minv := MulInv_loop (vec1.getD i 0) vec2 i res (Bounded_getD vec1 h1 i) h2 inv.bounded
    vec2.length (by rw [inv.len_eq]; omega)
  unfold standard_row
  simp only
  rw [minv.above _ (Nat.le_refl _), inv.zero_above _ (Nat.le_refl _), Nat.zero_add,
    Nat.mod_eq_of_lt (Nat.lt_trans minv.carry_lt BASE_lt_U64_one)]

theorem RowInv_step (vec1 vec2 res : List Nat) (i : Nat) (h1 : Bounded vec1)
    (h2 : Bounded vec2) (hi : i < vec1.length) (inv : RowInv vec1 vec2 i res) :
    RowInv vec1 vec2 (i + 1) (standard_row vec1 vec2 res i) := by
  have minv := MulInv_loop (vec1.getD i 0) vec2 i res (Bounded_getD vec1 h1 i) h2 inv.bounded
    vec2.length (by rw [inv.len_eq]; omega)
  rw [standard_row_eq vec1 vec2 res i h1 h2 hi inv]
  have hz : ((List.range vec2.length).foldl (mul_step (vec1.getD i 0) vec2 i) (res, 0)).1.getD
      (i + vec2.length) 0 = 0 := by
    rw [minv.above _ (Nat.le_refl _), inv.zero_above _ (Nat.le_refl _)]
  refine ⟨?_, ?_, ?_, ?_⟩
  · rw [List.length_set, minv.len_eq, inv.len_eq]
  · exact Bounded_set _ _ _ minv.bounded minv.carry_lt
  · intro p hp
    rw [getD_set, if_neg (by omega), minv.above p (by omega)]
    exact inv.zero_above p (by omega)
  · rw [value_set_of_zero _ _ _ (by rw [minv.len_eq, inv.len_eq]; omega) hz, minv.val,
      List.take_of_length_le (Nat.le_refl _), inv.val, value_take_succ]
    ring

theorem RowInv_loop (vec1 vec2 : List Nat) (h1 : Bounded vec1) (h2 : Bounded vec2) (i : Nat)
    (hi : i ≤ vec1.length) :
    RowInv vec1 vec2 i ((List.range i).foldl (standard_row vec1 vec2)
      (List.replicate (vec1.length + vec2.length) 0)) := by
  induction i with
  | zero => exact RowInv_init vec1 vec2
  | succ i ih =>
    rw [foldl_range_succ]
    exact RowInv_step vec1 vec2 _ i h1 h2 (by omega) (ih (by omega))

/-- The schoolbook product denotes the product of the operands. -/
theorem multiply_standard_value (vec1 vec2 : List Nat) (h1 : Bounded vec1)
    (h2 : Bounded vec2) :
    value (multiply_standard vec1 vec2) = value vec1 * value vec2 := by
  have inv := RowInv_loop vec1 vec2 h1 h2 vec1.length (Nat.le_refl _)
  unfold multiply_standard
  rw [remove_leading_zeros_value, inv.val, List.take_of_length_le (Nat.le_refl _)]

/-- The schoolbook product of non-empty operands is canonical. -/
theorem multiply_standard_Canonical (vec1 vec2 : List Nat) (hne : vec1 ≠ [])
    (h1 : Bounded vec1) (h2 : Bounded vec2) :
    Canonical (multiply_standard vec1 vec2) := by
  have inv := RowInv_loop vec1 vec2 h1 h2 vec1.length (Nat.le_refl _)
  unfold multiply_standard
  apply remove_leading_zeros_Canonical _ _ inv.bounded
  intro e
  have := inv.len_eq
  rw [e] at this
  have := List.length_pos.mpr hne
  simp only [List.length_nil] at *
  omega

/-! ## `multiply_standard_optimized` computes what `multiply_standard` computes -/

theorem set_getD_self (l : List Nat) (k : Nat) : l.set k (l.getD k 0) = l := by
  induction l generalizing k with
  | nil => rfl
  | cons x xs ih =>
    cases k with
    | zero => rfl
    | succ k =>
      show x :: xs.set k (xs.getD k 0) = x :: xs
      rw [ih]

theorem map_add_range_succ (j m : Nat) :
    (List.range (m + 1)).map (j + ·) = j :: (List.range m).map (j + 1 + ·) := by
  rw [List.range_succ_eq_map, List.map_cons, List.map_map]
  congr 1
  apply List.map_congr_left
  intro a _
  simp only [Function.comp, Nat.succ_eq_add_one]
  omega

/-- The pairwise unrolled loop followed by the step for an odd last column is the plain
loop over the columns `j .. size2 - 1`. -/
theorem unrolled_loop_eq (x : Nat) (vec2 : List Nat) (i : Nat) (fuel j : Nat)
    (st : List Nat × Nat) (hf : vec2.length ≤ j + 2 * fuel) :
    (if (unrolled_loop x vec2 i fuel j st).1 < vec2.length then
        mul_step x vec2 i (unrolled_loop x vec2 i fuel j st).2 (unrolled_loop x vec2 i fuel j st).1
      else (unrolled_loop x vec2 i fuel j st).2) =
      ((List.range (vec2.length - j)).map (j + ·)).foldl (mul_step x vec2 i) st := by
  induction fuel generalizing j st with
  | zero =>
    unfold unrolled_loop
    rw [if_neg (by simp only; omega), show vec2.length - j = 0 by omega]
    rfl
  | succ fuel ih =>
    unfold unrolled_loop
    by_cases h : j + 1 < vec2.length
    · rw [if_pos h, ih (j + 2) _ (by omega)]
      have e : vec2.length - j = (vec2.length - (j + 2)) + 1 + 1 := by omega
      rw [e, map_add_range_succ, map_add_range_succ]
      rfl
    · rw [if_neg h]
      by_cases h2 : j < vec2.length
      · rw [if_pos (by simpa using h2), show vec2.length - j = 1 by omega]
        rfl
      · rw [if_neg (by simpa using h2), show vec2.length - j = 0 by omega]
        rfl

/-- A row whose multiplier is zero leaves the accumulator as it is. -/
theorem zero_row_loop (vec2 res : List Nat) (i : Nat) (hb : Bounded res) (k : Nat) :
    (List.range k).foldl (mul_step 0 vec2 i) (res, 0) = (res, 0) := by
  induction k with
  | zero => rfl
  | succ k ih =>
    rw [foldl_range_succ, ih]
    have hr := Bounded_getD res hb (i + k)
    unfold mul_step
    simp only [Nat.zero_mul, Nat.zero_add, Nat.add_zero]
    rw [Nat.mod_eq_of_lt (show res.getD (i + k) 0 < U128 by
        have : BASE < U128 := by decide
        omega),
      Nat.mod_eq_of_lt hr, Nat.mod_eq_of_lt (Nat.lt_trans hr BASE_lt_U64_one),
      set_getD_self, Nat.div_eq_of_lt hr]
    rfl

theorem optimized_row_eq (vec1 vec2 res : List Nat) (i : Nat) (h1 : Bounded vec1)
    (h2 : Bounded vec2) (hi : i < vec1.length) (inv : RowInv vec1 vec2 i res) :
    optimized_row vec1 vec2 res i = standard_row vec1 vec2 res i := by
  have minv := MulInv_loop (vec1.getD i 0) vec2 i res (Bounded_getD vec1 h1 i) h2 inv.bounded
    vec2.length (by rw [inv.len_eq]; omega)
  rw [standard_row_eq vec1 vec2 res i h1 h2 hi inv]
  unfold optimized_row
  simp only
  by_cases hx : vec1.getD i 0 = 0
  · rw [if_pos hx, hx, zero_row_loop vec2 res i inv.bounded]
    have hself := set_getD_self res (i + vec2.length)
    rw [inv.zero_above (i + vec2.length) (Nat.le_refl _)] at hself
    exact hself.symm
  · rw [if_neg hx]
    have hu := unrolled_loop_eq (vec1.getD i 0) vec2 i vec2.length 0 (res, 0) (by omega)
    simp only [Nat.sub_zero, Nat.zero_add, List.map_id_fun', id_eq] at hu
    rw [hu]
    have hz : ((List.range vec2.length).foldl (mul_step (vec1.getD i 0) vec2 i) (res, 0)).1.getD
        (i + vec2.length) 0 = 0 := by
      rw [minv.above _ (Nat.le_refl _), inv.zero_above _ (Nat.le_refl _)]
    by_cases hc : ((List.range vec2.length).foldl (mul_step (vec1.getD i 0) vec2 i) (res, 0)).2 > 0
    · rw [if_pos hc, hz, Nat.zero_add,
        Nat.mod_eq_of_lt (Nat.lt_trans minv.carry_lt BASE_lt_U64_one)]
    · rw [if_neg hc]
      have hc0 : ((List.range vec2.length).foldl (mul_step (vec1.getD i 0) vec2 i) (res, 0)).2
          = 0 := by omega
      have hself := set_getD_self
        ((List.range vec2.length).foldl (mul_step (vec1.getD i 0) vec2 i) (res, 0)).1
        (i + vec2.length)
      rw [hz] at hself
      rw [hc0, hself]

theorem optimized_rows_eq (vec1 vec2 : List Nat) (h1 : Bounded vec1) (h2 : Bounded vec2)
    (i : Nat) (hi : i ≤ vec1.length) :
    (List.range i).foldl (optimized_row vec1 vec2)
        (List.replicate (vec1.length + vec2.length) 0) =
      (List.range i).foldl (standard_row vec1 vec2)
        (List.replicate (vec1.length + vec2.length) 0) := by
  induction i with
  | zero => rfl
  | succ i ih =>
    rw [foldl_range_succ, foldl_range_succ, ih (by omega)]
    exact optimized_row_eq vec1 vec2 _ i h1 h2 (by omega)
      (RowInv_loop vec1 vec2 h1 h2 i (by omega))

/-- On canonical operands the early exits, the skipped zero rows and the unrolled inner
loop of `multiply_standard_optimized` give the block sequence of `multiply_standard`. -/
theorem multiply_standard_optimized_eq (vec1 vec2 : List Nat) (h1 : Canonical vec1)
    (h2 : Canonical vec2) :
    multiply_standard_optimized vec1 vec2 = multiply_standard vec1 vec2 := by
  have hc := multiply_standard_Canonical vec1 vec2 h1.1 h1.2.1 h2.2.1
  have hv := multiply_standard_value vec1 vec2 h1.2.1 h2.2.1
  have hl1 : vec1.length ≠ 0 := fun e => h1.1 (List.length_eq_zero.mp e)
  have hl2 : vec2.length ≠ 0 := fun e => h2.1 (List.length_eq_zero.mp e)
  have c0 : Canonical [0] := by decide
  have single : ∀ (l : List Nat) (y : Nat), l.length = 1 ∧ l.getD 0 0 = y → l = [y] := by
    intro l y h
    match l, h with
    | [z], h => simpa using h.2
  unfold multiply_standard_optimized
  rw [if_neg (by omega)]
  split
  · next h =>
    rw [set_string_number_zero]
    apply Canonical_eq_of_value_eq _ _ c0 hc
    rw [hv, single vec1 0 h]
    simp [value]
  split
  · next h =>
    rw [set_string_number_zero]
    apply Canonical_eq_of_value_eq _ _ c0 hc
    rw [hv, single vec2 0 h]
    simp [value]
  split
  · next h =>
    apply Canonical_eq_of_value_eq _ _ h2 hc
    rw [hv, single vec1 1 h]
    simp [value]
  split
  · next h =>
    apply Canonical_eq_of_value_eq _ _ h1 hc
    rw [hv, single vec2 1 h]
    simp [value]
  · unfold multiply_standard remove_leading_zeros_optimized remove_leading_zeros
    rw [optimized_rows_eq vec1 vec2 h1.2.1 h2.2.1 vec1.length (Nat.le_refl _)]

/-! ## The Karatsuba-style functions return, and return the schoolbook product -/

theorem resize_length (vec : List Nat) (n : Nat) : (resize vec n).length = n := by
  unfold resize
  rw [List.length_append, List.length_take, List.length_replicate]
  omega

theorem create_subrange_length (vec : List Nat) (start stop : Nat) :
    (create_subrange vec start stop).length =
      if start ≥ vec.length ∨ start ≥ min stop vec.length then 1
      else min stop vec.length - start := by
  unfold create_subrange
  by_cases h1 : start ≥ vec.length
  · rw [if_pos h1, if_pos (Or.inl h1)]; rfl
  · rw [if_neg h1]
    simp only
    by_cases h2 : start ≥ min stop vec.length
    · rw [if_pos h2, if_pos (Or.inr h2)]; rfl
    · rw [if_neg h2, if_neg (by simp only [not_or]; exact ⟨h1, h2⟩), List.length_drop,
        List.length_take]
      omega

theorem multiply_karatsuba_base (fuel : Nat) (vec1 vec2 : List Nat)
    (h : vec1.length ≤ 32 ∨ vec2.length ≤ 32) :
    multiply_karatsuba (fuel + 1) vec1 vec2 = some (multiply_standard vec1 vec2) := by
  unfold multiply_karatsuba
  rw [if_pos h]

theorem multiply_karatsuba_optimized_base (fuel : Nat) (vec1 vec2 : List Nat)
    (h : vec1.length ≤ 32 ∨ vec2.length ≤ 32) :
    multiply_karatsuba_optimized (fuel + 1) vec1 vec2
      = some (multiply_standard_optimized vec1 vec2) := by
  unfold multiply_karatsuba_optimized
  simp only
  rw [if_pos h]

/-- With a budget above the larger block count, `multiply_karatsuba` returns, and what
it returns is the result of `multiply_standard` on its arguments. -/
theorem multiply_karatsuba_eq (fuel : Nat) (vec1 vec2 : List Nat)
    (hf : max vec1.length vec2.length < fuel) :
    multiply_karatsuba fuel vec1 vec2 = some (multiply_standard vec1 vec2) := by
  induction fuel generalizing vec1 vec2 with
  | zero => omega
  | succ fuel ih =>
    by_cases h : vec1.length ≤ 32 ∨ vec2.length ≤ 32
    · exact multiply_karatsuba_base fuel vec1 vec2 h
    · have key : ∀ (x y : List Nat) (f : List Nat → Option (List Nat)),
          max x.length y.length < fuel →
          (multiply_karatsuba fuel x y).bind f = f (multiply_standard x y) := by
        intro x y f hxy
        rw [ih x y hxy]
        rfl
      unfold multiply_karatsuba
      rw [if_neg h]
      simp only
      have hM : ∀ M : Nat, M = (if max vec1.length vec2.length % 2 = 1 then
          max vec1.length vec2.length + 1 else max vec1.length vec2.length) →
          M / 2 + 1 < fuel ∧ M / 2 ≤ M ∧ M - M / 2 ≤ M / 2 := by
        intro M hM
        split at hM <;> omega
      obtain ⟨hlt, hle, hhigh⟩ := hM _ rfl
      have hadd := fun x y => (operator_add_length x y).2
      rw [key, key, key]
      · have h1 := hadd
          (List.take ((if max vec1.length vec2.length % 2 = 1 then
            max vec1.length vec2.length + 1 else max vec1.length vec2.length) / 2)
            (resize vec1 (if max vec1.length vec2.length % 2 = 1 then
              max vec1.length vec2.length + 1 else max vec1.length vec2.length)))
          (List.drop ((if max vec1.length vec2.length % 2 = 1 then
            max vec1.length vec2.length + 1 else max vec1.length vec2.length) / 2)
            (resize vec1 (if max vec1.length vec2.length % 2 = 1 then
              max vec1.length vec2.length + 1 else max vec1.length vec2.length)))
        have h2 := hadd
          (List.take ((if max vec1.length vec2.length % 2 = 1 then
            max vec1.length vec2.length + 1 else max vec1.length vec2.length) / 2)
            (resize vec2 (if max vec1.length vec2.length % 2 = 1 then
              max vec1.length vec2.length + 1 else max vec1.length vec2.length)))
          (List.drop ((if max vec1.length vec2.length % 2 = 1 then
            max vec1.length vec2.length + 1 else max vec1.length vec2.length) / 2)
            (resize vec2 (if max vec1.length vec2.length % 2 = 1 then
              max vec1.length vec2.length + 1 else max vec1.length vec2.length)))
        simp only [List.length_take, List.length_drop, resize_length] at h1 h2
        omega
      · simp only [List.length_drop, resize_length]
        omega
      · simp only [List.length_take, resize_length]
        omega

/-- The function `multiply_toom_cook_3` returns what `multiply_karatsuba` returns. -/
theorem multiply_toom_cook_3_eq (fuel : Nat) (vec1 vec2 : List Nat)
    (hf : max vec1.length vec2.length < fuel) :
    multiply_toom_cook_3 fuel vec1 vec2 = some (multiply_standard vec1 vec2) := by
  unfold multiply_toom_cook_3
  rw [multiply_karatsuba_eq fuel vec1 vec2 hf]
  simp

theorem bind_const_of_isSome {α β : Type} (o : Option α) (r : Option β) (h : o.isSome = true) :
    (o.bind fun _ => r) = r := by
  cases o with
  | none => simp at h
  | some x => rfl

/-- The split point of `multiply_karatsuba_optimized` when both operands have more than
32 blocks. -/
theorem split_bounds (s1 s2 M S : Nat) (h1 : 32 < s1) (h2 : 32 < s2) (hM : M = max s1 s2)
    (hS : S = if (M + 1) / 2 > min s1 s2 then min s1 s2 else (M + 1) / 2) :
    17 ≤ S ∧ S ≤ s1 ∧ S ≤ s2 ∧ S + 2 < M ∧ s1 ≤ M ∧ s2 ≤ M ∧ (s1 = M ∨ s2 = M) := by
  subst hM
  split at hS <;> omega

theorem create_subrange_low_length (vec : List Nat) (S : Nat) (h0 : 0 < S)
    (hS : S ≤ vec.length) : (create_subrange vec 0 S).length = S := by
  rw [create_subrange_length]
  split <;> omega

theorem create_subrange_high_length (vec : List Nat) (S : Nat) :
    (create_subrange vec S vec.length).length = if vec.length ≤ S then 1 else vec.length - S := by
  rw [create_subrange_length, Nat.min_self]
  by_cases h : vec.length ≤ S
  · rw [if_pos (Or.inl h), if_pos h]
  · rw [if_neg (by omega), if_neg h]

/-- With a budget above the larger block count, `multiply_karatsuba_optimized` returns,
and what it returns is the result of `multiply_standard_optimized` on its arguments. -/
theorem multiply_karatsuba_optimized_eq (fuel : Nat) (vec1 vec2 : List Nat)
    (hf : max vec1.length vec2.length < fuel) :
    multiply_karatsuba_optimized fuel vec1 vec2
      = some (multiply_standard_optimized vec1 vec2) := by
  induction fuel generalizing vec1 vec2 with
  | zero => omega
  | succ fuel ih =>
    by_cases h : vec1.length ≤ 32 ∨ vec2.length ≤ 32
    · exact multiply_karatsuba_optimized_base fuel vec1 vec2 h
    · have hsome : ∀ (x y : List Nat), x.length < fuel → y.length < fuel →
          (multiply_karatsuba_optimized fuel x y).isSome = true := by
        intro x y hx hy
        rw [ih x y (by omega)]
        rfl
      unfold multiply_karatsuba_optimized
      simp only
      rw [if_neg h]
      generalize hMdef : max vec1.length vec2.length = M at *
      generalize hSdef : (if (M + 1) / 2 > min vec1.length vec2.length then
          min vec1.length vec2.length else (M + 1) / 2) = S at *
      obtain ⟨hS1, hS2, hS3, hS4, hM1, hM2, hM3⟩ :=
        split_bounds vec1.length vec2.length M S (by omega) (by omega) hMdef.symm hSdef.symm
      have la_low := create_subrange_low_length vec1 S (by omega) hS2
      have la_high := create_subrange_high_length vec1 S
      have lb_low := create_subrange_low_length vec2 S (by omega) hS3
      have lb_high := create_subrange_high_length vec2 S
      have hsum_a := (operator_add_length (create_subrange vec1 0 S)
        (create_subrange vec1 S vec1.length)).2
      have hsum_b := (operator_add_length (create_subrange vec2 0 S)
        (create_subrange vec2 S vec2.length)).2
      clear hMdef hSdef h ih
      generalize create_subrange vec1 0 S = a_low at *
      generalize create_subrange vec1 S vec1.length = a_high at *
      generalize create_subrange vec2 0 S = b_low at *
      generalize create_subrange vec2 S vec2.length = b_high at *
      generalize operator_add a_low a_high = a_sum at *
      generalize operator_add b_low b_high = b_sum at *
      have ha_high : a_high.length + 17 ≤ M ∧ a_high.length ≠ 0 ∧
          (a_high.length = 1 → vec1.length ≤ S + 1) := by
        rw [la_high]; split <;> omega
      have hb_high : b_high.length + 17 ≤ M ∧ b_high.length ≠ 0 ∧
          (b_high.length = 1 → vec2.length ≤ S + 1) := by
        rw [lb_high]; split <;> omega
      clear la_high lb_high
      have ha_sum : a_sum.length < fuel := by
        have : max a_low.length a_high.length ≤ M - 3 := by
          rw [la_low]; exact Nat.max_le.mpr ⟨by omega, by omega⟩
        omega
      have hb_sum : b_sum.length < fuel := by
        have : max b_low.length b_high.length ≤ M - 3 := by
          rw [lb_low]; exact Nat.max_le.mpr ⟨by omega, by omega⟩
        omega
      clear hsum_a hsum_b
      split
      · next hz =>
        exfalso
        have e1 : a_high.length = 1 := by
          rcases hz.1 with h1 | h1
          · exact h1.1
          · exact absurd h1 ha_high.2.1
        have e2 : b_high.length = 1 := by
          rcases hz.2 with h1 | h1
          · exact h1.1
          · exact absurd h1 hb_high.2.1
        have := ha_high.2.2 e1
        have := hb_high.2.2 e2
        omega
      · rw [bind_const_of_isSome _ _ (hsome a_low b_low (by omega) (by omega)),
          bind_const_of_isSome, bind_const_of_isSome _ _ (hsome a_sum b_sum ha_sum hb_sum)]
        split
        · rfl
        · exact hsome a_high b_high (by omega) (by omega)

/-! ## `operator*` -/

/-- On canonical operands every branch of the dispatcher returns, and returns the block
sequence of the schoolbook product. -/
theorem operator_mul_eq_standard (fuel : Nat) (n1 n2 : List Nat) (h1 : Canonical n1)
    (h2 : Canonical n2) (hf : max n1.length n2.length < fuel) :
    operator_mul fuel n1 n2 = some (multiply_standard n1 n2) := by
  unfold operator_mul
  split
  · rw [multiply_standard_optimized_eq n1 n2 h1 h2]
  · rw [multiply_karatsuba_optimized_eq fuel n1 n2 hf, multiply_standard_optimized_eq n1 n2 h1 h2]
  · exact multiply_toom_cook_3_eq fuel n1 n2 hf

/-- The product returned by `operator*` denotes the product of the operands. -/
theorem operator_mul_value (fuel : Nat) (n1 n2 : List Nat) (h1 : Canonical n1)
    (h2 : Canonical n2) (hf : max n1.length n2.length < fuel) :
    ∃ r, operator_mul fuel n1 n2 = some r ∧ value r = value n1 * value n2 :=
  ⟨multiply_standard n1 n2, operator_mul_eq_standard fuel n1 n2 h1 h2 hf,
    multiply_standard_value n1 n2 h1.2.1 h2.2.1⟩

/-- When one operand has at most 32 blocks, `operator*` needs one unit of budget. -/
theorem operator_mul_small (fuel : Nat) (n1 n2 : List Nat)
    (hs : n1.length ≤ 32 ∨ n2.length ≤ 32) (hf : 0 < fuel) :
    operator_mul fuel n1 n2 = some (multiply_standard_optimized n1 n2) ∨
      operator_mul fuel n1 n2 = some (multiply_standard n1 n2) := by
  obtain ⟨f, rfl⟩ : ∃ f, fuel = f + 1 := ⟨fuel - 1, by omega⟩
  unfold operator_mul
  split
  · exact Or.inl rfl
  · exact Or.inl (multiply_karatsuba_optimized_base f n1 n2 hs)
  · right
    unfold multiply_toom_cook_3
    rw [multiply_karatsuba_base f n1 n2 hs]
    simp

theorem Canonical_one : Canonical [1] := by decide

theorem Canonical_zero : Canonical [0] := by decide

theorem multiply_standard_one_right (a : List Nat) (ha : Canonical a) :
    multiply_standard a [1] = a := by
  apply Canonical_eq_of_value_eq _ _
    (multiply_standard_Canonical a [1] ha.1 ha.2.1 Canonical_one.2.1) ha
  rw [multiply_standard_value a [1] ha.2.1 Canonical_one.2.1]
  simp [value]

theorem multiply_standard_one_left (a : List Nat) (ha : Canonical a) :
    multiply_standard [1] a = a := by
  apply Canonical_eq_of_value_eq _ _
    (multiply_standard_Canonical [1] a (by simp) Canonical_one.2.1 ha.2.1) ha
  rw [multiply_standard_value [1] a Canonical_one.2.1 ha.2.1]
  simp [value]

/-- Whatever the blocks of `a`, the optimized schoolbook product with `[0]` is `[0]`. -/
theorem multiply_standard_optimized_zero (a : List Nat) :
    multiply_standard_optimized a [0] = [0] ∧ multiply_standard_optimized [0] a = [0] := by
  constructor
  · unfold multiply_standard_optimized
    split
    · exact set_string_number_zero
    · split
      · exact set_string_number_zero
      · rw [if_pos (by simp)]
        exact set_string_number_zero
  · unfold multiply_standard_optimized
    split
    · exact set_string_number_zero
    · rw [if_pos (by simp)]
      exact set_string_number_zero

theorem range_one_eq : List.range 1 = [0] := rfl

theorem remove_leading_zeros_replicate_zero (n : Nat) :
    remove_leading_zeros (List.replicate (n + 1) 0) = [0] := by
  apply Canonical_eq_of_value_eq _ _ _ Canonical_zero
  · rw [remove_leading_zeros_value, value_replicate_zero]
    rfl
  · exact remove_leading_zeros_Canonical _ (by simp [List.replicate_succ])
      (Bounded_replicate_zero _)

/-- A row against the single block `0` leaves an all-zero accumulator as it is, whatever
the multiplier block. -/
theorem standard_row_zero_right (vec1 : List Nat) (n i : Nat) :
    standard_row vec1 [0] (List.replicate n 0) i = List.replicate n 0 := by
  have hs := set_getD_self (List.replicate n 0)
  simp only [getD_replicate_zero] at hs
  unfold standard_row
  simp only [List.length_singleton, range_one_eq, List.foldl_cons, List.foldl_nil, mul_step,
    List.getD_cons_zero, Nat.mul_zero, Nat.zero_add, Nat.add_zero, getD_replicate_zero,
    Nat.zero_mod, Nat.zero_div, hs]

theorem standard_row_zero_left (vec2 : List Nat) (n : Nat) :
    standard_row [0] vec2 (List.replicate n 0) 0 = List.replicate n 0 := by
  have hs := set_getD_self (List.replicate n 0)
  simp only [getD_replicate_zero] at hs
  unfold standard_row
  simp only [List.getD_cons_zero, zero_row_loop vec2 _ 0 (Bounded_replicate_zero n),
    getD_replicate_zero, Nat.zero_add, Nat.zero_mod, hs]

theorem foldl_fixed {σ : Type} (f : σ → Nat → σ) (s : σ) (l : List Nat)
    (h : ∀ i, f s i = s) : l.foldl f s = s := by
  induction l with
  | nil => rfl
  | cons x xs ih => rw [List.foldl_cons, h, ih]

/-- Whatever the blocks of `a`, the schoolbook product with `[0]` is `[0]`. -/
theorem multiply_standard_zero (a : List Nat) :
    multiply_standard a [0] = [0] ∧ multiply_standard [0] a = [0] := by
  constructor
  · unfold multiply_standard
    rw [foldl_fixed _ _ _ (fun i => standard_row_zero_right a _ i)]
    exact remove_leading_zeros_replicate_zero _
  · unfold multiply_standard
    simp only [List.length_singleton, range_one_eq, List.foldl_cons, List.foldl_nil]
    rw [standard_row_zero_left, Nat.add_comm]
    exact remove_leading_zeros_replicate_zero _

/-! ## The claims -/

set_option maxRecDepth 100000 in
/-- C1: the string witness of the claim, run through the code. `BigInt("2")` is `[2]`,
but `BigInt("12345678901234567890123")` is not the block sequence of that number: the
low block, accumulated in `double`, comes out as `678901234567890176` instead of
`678901234567890123`, and the product renders as `24691357802469135780352`, not as
`24691357802469135780246`. (On canonical block sequences `operator*` itself is exact:
`operator_mul_value`.) -/
theorem C1_string_witness_evaluated :
    set_string_number "12345678901234567890123".toList = [678901234567890176, 12345] ∧
    set_string_number "2".toList = [2] ∧
    (operator_mul 1 (set_string_number "12345678901234567890123".toList)
        (set_string_number "2".toList)).bind to_string
      = some "24691357802469135780352".toList ∧
    (operator_mul 1 [678901234567890123, 12345] [2]).bind to_string
      = some "24691357802469135780246".toList := by
  decide

set_option maxRecDepth 100000 in
/-- C2: the string witnesses of the claim, run through the code. The operand
`BigInt("999999999999999999")` is the single block `10^18` (the `double` accumulation
rounds `9999999999999999` up to `10^16`), so adding `BigInt("1")` renders as
`1000000000000000001`; and `BigInt("123456789012345678901234567890") + BigInt("1")`
renders as `123456789012345678901234567873`. (On block sequences below the radix
`operator+` itself is exact: `operator_add_value`.) -/
theorem C2_string_witnesses_evaluated :
    set_string_number "999999999999999999".toList = [1000000000000000000] ∧
    to_string (operator_add (set_string_number "999999999999999999".toList)
        (set_string_number "1".toList))
      = some "1000000000000000001".toList ∧
    to_string (operator_add (set_string_number "123456789012345678901234567890".toList)
        (set_string_number "1".toList))
      = some "123456789012345678901234567873".toList ∧
    to_string (operator_add [999999999999999999] [1]) = some "1000000000000000000".toList := by
  decide

set_option maxRecDepth 100000 in
/-- C3: the round trip fails at `"9007199254740993"` (the number `2^53 + 1`, no leading
zero): the block is accumulated in `double`, which cannot hold `2^53 + 1`, and the
number is rendered back as `"9007199254740992"`. -/
theorem C3_round_trip_fails :
    to_string (set_string_number "9007199254740993".toList)
      = some "9007199254740992".toList ∧
    to_string (set_string_number "9007199254740993".toList)
      ≠ some "9007199254740993".toList := by
  decide

/-- C4: both arithmetic operators preserve the representation invariant: for canonical
operands, `a + b` is canonical, and `a * b` (through the dispatcher, with a recursion
budget above the larger block count) returns a canonical result. -/
theorem C4_operators_preserve_canonical (a b : List Nat) (ha : Canonical a)
    (hb : Canonical b) :
    Canonical (operator_add a b) ∧
      ∀ fuel, max a.length b.length < fuel →
        ∃ r, operator_mul fuel a b = some r ∧ Canonical r :=
  ⟨operator_add_Canonical a b ha hb, fun fuel hf =>
    ⟨multiply_standard a b, operator_mul_eq_standard fuel a b ha hb hf,
      multiply_standard_Canonical a b ha.1 ha.2.1 hb.2.1⟩⟩

theorem C4_operators_preserve_canonical_witness :
    Canonical (operator_add [999999999999999999, 5] [1]) ∧
      ∀ fuel, max [999999999999999999, 5].length [1].length < fuel →
        ∃ r, operator_mul fuel [999999999999999999, 5] [1] = some r ∧ Canonical r :=
  C4_operators_preserve_canonical [999999999999999999, 5] [1] (by decide) (by decide)

/-- C5: addition is commutative on block sequences: `a + b` and `b + a` are the same
sequence, for all operands (whatever their blocks and lengths). -/
theorem C5_operator_add_comm (a b : List Nat) : operator_add a b = operator_add b a := by
  have hmax : (if a.length ≥ b.length then a.length else b.length)
      = (if b.length ≥ a.length then b.length else a.length) := by
    split <;> split <;> omega
  unfold operator_add
  rw [add_loops_comm a b, hmax]

/-- C6: zero is the additive identity: for a non-empty `a` with every block below the
radix, `a + BigInt("0")` is the block sequence `a`. -/
theorem C6_operator_add_zero (a : List Nat) (hne : a ≠ []) (hb : Bounded a) :
    operator_add a (set_string_number "0".toList) = a := by
  show operator_add a (set_string_number ['0']) = a
  rw [set_string_number_zero]
  exact operator_add_zero_right a hne hb

theorem C6_operator_add_zero_witness :
    operator_add [999999999999999999, 0] (set_string_number "0".toList)
      = [999999999999999999, 0] :=
  C6_operator_add_zero [999999999999999999, 0] (by decide) (by decide)

/-- Against the single block `1`, the early exits of `multiply_standard_optimized` return
a non-empty operand as it is, whatever its blocks. -/
theorem multiply_standard_optimized_one (a : List Nat) (hne : a ≠ []) :
    multiply_standard_optimized a [1] = a ∧ multiply_standard_optimized [1] a = a := by
  have hl : a.length ≠ 0 := fun e => hne (List.length_eq_zero.mp e)
  have single : ∀ (l : List Nat) (y : Nat), l.length = 1 ∧ l.getD 0 0 = y → l = [y] := by
    intro l y h
    match l, h with
    | [z], h => simpa using h.2
  constructor
  · unfold multiply_standard_optimized
    rw [if_neg (by simp only [List.length_singleton]; omega)]
    split
    · next h => rw [set_string_number_zero, single a 0 h]
    · rw [if_neg (by simp)]
      split
      · next h => rw [single a 1 h]
      · rw [if_pos (by simp)]
  · unfold multiply_standard_optimized
    rw [if_neg (by simp only [List.length_singleton]; omega), if_neg (by simp)]
    split
    · next h => rw [set_string_number_zero, single a 0 h]
    · rw [if_pos (by simp)]

/-- Up to 200000 blocks, with one operand of at most 32 blocks, `operator*` returns what
`multiply_standard_optimized` returns: the Toom-Cook-style branch is not taken. -/
theorem operator_mul_small_optimized (fuel : Nat) (n1 n2 : List Nat)
    (hs : n1.length ≤ 32 ∨ n2.length ≤ 32) (hl : max n1.length n2.length ≤ 200000)
    (hf : 0 < fuel) :
    operator_mul fuel n1 n2 = some (multiply_standard_optimized n1 n2) := by
  obtain ⟨f, rfl⟩ : ∃ f, fuel = f + 1 := ⟨fuel - 1, by omega⟩
  unfold operator_mul
  split
  · rfl
  · exact multiply_karatsuba_optimized_base f n1 n2 hs
  · next heq =>
    exfalso
    unfold select_algorithm DIGIT_THRESHOLD_STANDARD DIGIT_THRESHOLD_KARATSUBA at heq
    simp only at heq
    split at heq
    · cases heq
    · rw [if_pos (Or.inl hl)] at heq
      cases heq

/-- Above 200000 blocks against one block, `operator*` goes through
`multiply_toom_cook_3` and `multiply_karatsuba` to `multiply_standard`. -/
theorem operator_mul_huge_standard (fuel : Nat) (n1 n2 : List Nat)
    (hs : n1.length ≤ 32 ∨ n2.length ≤ 32) (hl : 200000 < max n1.length n2.length)
    (hf : 0 < fuel) :
    operator_mul fuel n1 n2 = some (multiply_standard n1 n2) := by
  obtain ⟨f, rfl⟩ : ∃ f, fuel = f + 1 := ⟨fuel - 1, by omega⟩
  have hsel : select_algorithm n1.length n2.length = Algorithm.toom_cook := by
    unfold select_algorithm DIGIT_THRESHOLD_STANDARD DIGIT_THRESHOLD_KARATSUBA
    simp only
    rw [if_neg (by omega), if_neg (by omega)]
  unfold operator_mul
  rw [hsel]
  show multiply_toom_cook_3 (f + 1) n1 n2 = _
  unfold multiply_toom_cook_3
  rw [multiply_karatsuba_base f n1 n2 hs]
  simp

theorem replicate_succ_ne_nil (n x : Nat) : List.replicate (n + 1) x ≠ [] := by
  rw [List.replicate_succ]
  exact List.cons_ne_nil _ _

/-- The schoolbook product of an all-zero sequence with `[1]` is the single block `0`. -/
theorem multiply_standard_zeros_one (n : Nat) :
    multiply_standard (List.replicate (n + 1) 0) [1] = [0] ∧
      multiply_standard [1] (List.replicate (n + 1) 0) = [0] := by
  have hb := Bounded_replicate_zero (n + 1)
  have hb1 : Bounded [1] := Canonical_one.2.1
  constructor
  · apply Canonical_eq_of_value_eq _ _
      (multiply_standard_Canonical _ [1] (replicate_succ_ne_nil n 0) hb hb1) Canonical_zero
    rw [multiply_standard_value _ _ hb hb1, value_replicate_zero]
    simp [value]
  · apply Canonical_eq_of_value_eq _ _
      (multiply_standard_Canonical [1] _ (by simp) hb1 hb) Canonical_zero
    rw [multiply_standard_value _ _ hb1 hb, value_replicate_zero]
    simp [value]

/-- C7, as stated, fails on a number that is not canonical and has more than 200000
blocks: for 200001 zero blocks, `operator*` takes the Toom-Cook-style branch, which ends
in `multiply_standard`, and its `remove_leading_zeros` pops the trailing zero blocks.
`a * BigInt("1")` and `BigInt("1") * a` are `[0]`, not the block sequence `a`. -/
theorem C7_trailing_zero_blocks_are_popped :
    operator_mul 1 (List.replicate 200001 0) (set_string_number "1".toList) = some [0] ∧
    operator_mul 1 (set_string_number "1".toList) (List.replicate 200001 0) = some [0] ∧
    operator_mul 1 (List.replicate 200001 0) (set_string_number "1".toList)
      ≠ some (List.replicate 200001 0) ∧
    operator_mul 1 (set_string_number "1".toList) (List.replicate 200001 0)
      ≠ some (List.replicate 200001 0) := by
  show operator_mul 1 (List.replicate 200001 0) (set_string_number ['1']) = some [0] ∧
    operator_mul 1 (set_string_number ['1']) (List.replicate 200001 0) = some [0] ∧
    operator_mul 1 (List.replicate 200001 0) (set_string_number ['1'])
      ≠ some (List.replicate 200001 0) ∧
    operator_mul 1 (set_string_number ['1']) (List.replicate 200001 0)
      ≠ some (List.replicate 200001 0)
  rw [set_string_number_one]
  have h1 : operator_mul 1 (List.replicate 200001 0) [1] = some [0] := by
    rw [operator_mul_huge_standard 1 _ _ (Or.inr (by simp))
      (by rw [List.length_replicate]; decide) (by decide)]
    exact congrArg some (multiply_standard_zeros_one 200000).1
  have h2 : operator_mul 1 [1] (List.replicate 200001 0) = some [0] := by
    rw [operator_mul_huge_standard 1 _ _ (Or.inl (by simp))
      (by rw [List.length_replicate]; decide) (by decide)]
    exact congrArg some (multiply_standard_zeros_one 200000).2
  have hne : some [0] ≠ some (List.replicate 200001 0) := by
    intro h
    have := congrArg (fun o => (o.getD []).length) h
    simp only [Option.getD_some, List.length_singleton, List.length_replicate] at this
    omega
  rw [h1, h2]
  exact ⟨rfl, rfl, hne, hne⟩

/-- C7, amended: one is the multiplicative identity on every non-empty number that is
canonical (at any block count, above both dispatcher thresholds too) or has at most
200000 blocks: `a * BigInt("1")` and `BigInt("1") * a` through `operator*` return the
block sequence `a` (one unit of recursion budget is enough, on every branch of the
dispatcher). -/
theorem C7_operator_mul_one (fuel : Nat) (a : List Nat) (hne : a ≠ [])
    (ha : Canonical a ∨ a.length ≤ 200000) (hf : 0 < fuel) :
    operator_mul fuel a (set_string_number "1".toList) = some a ∧
      operator_mul fuel (set_string_number "1".toList) a = some a := by
  show operator_mul fuel a (set_string_number ['1']) = some a ∧
      operator_mul fuel (set_string_number ['1']) a = some a
  rw [set_string_number_one]
  have hpos : 0 < a.length := List.length_pos.mpr hne
  rcases ha with ha | ha
  · constructor
    · rcases operator_mul_small fuel a [1] (Or.inr (by simp)) hf with h | h
      · rw [h, multiply_standard_optimized_eq a [1] ha Canonical_one,
          multiply_standard_one_right a ha]
      · rw [h, multiply_standard_one_right a ha]
    · rcases operator_mul_small fuel [1] a (Or.inl (by simp)) hf with h | h
      · rw [h, multiply_standard_optimized_eq [1] a Canonical_one ha,
          multiply_standard_one_left a ha]
      · rw [h, multiply_standard_one_left a ha]
  · constructor
    · rw [operator_mul_small_optimized fuel a [1] (Or.inr (by simp))
        (by simp only [List.length_singleton]; omega) hf,
        (multiply_standard_optimized_one a hne).1]
    · rw [operator_mul_small_optimized fuel [1] a (Or.inl (by simp))
        (by simp only [List.length_singleton]; omega) hf,
        (multiply_standard_optimized_one a hne).2]

/-- A two-block number with a trailing zero block, which is not canonical. -/
theorem C7_operator_mul_one_witness :
    operator_mul 1 [999999999999999999, 0] (set_string_number "1".toList)
        = some [999999999999999999, 0] ∧
      operator_mul 1 (set_string_number "1".toList) [999999999999999999, 0]
        = some [999999999999999999, 0] :=
  C7_operator_mul_one 1 [999999999999999999, 0] (by decide) (Or.inr (by decide)) (by decide)

/-- C8: zero annihilates: for every block sequence `a`, of any block count,
`a * BigInt("0")` and `BigInt("0") * a` through `operator*` return `[0]` (one unit of
recursion budget is enough, on every branch of the dispatcher). -/
theorem C8_operator_mul_zero (fuel : Nat) (a : List Nat) (hf : 0 < fuel) :
    operator_mul fuel a (set_string_number "0".toList) = some [0] ∧
      operator_mul fuel (set_string_number "0".toList) a = some [0] := by
  show operator_mul fuel a (set_string_number ['0']) = some [0] ∧
      operator_mul fuel (set_string_number ['0']) a = some [0]
  rw [set_string_number_zero]
  constructor
  · rcases operator_mul_small fuel a [0] (Or.inr (by simp)) hf with h | h
    · rw [h, (multiply_standard_optimized_zero a).1]
    · rw [h, (multiply_standard_zero a).1]
  · rcases operator_mul_small fuel [0] a (Or.inl (by simp)) hf with h | h
    · rw [h, (multiply_standard_optimized_zero a).2]
    · rw [h, (multiply_standard_zero a).2]

theorem C8_operator_mul_zero_witness :
    operator_mul 1 [5, 7] (set_string_number "0".toList) = some [0] ∧
      operator_mul 1 (set_string_number "0".toList) [5, 7] = some [0] :=
  C8_operator_mul_zero 1 [5, 7] (by decide)

/-- C9: invoked directly, `multiply_karatsuba` and `multiply_toom_cook_3` return (with a
recursion budget above the larger block count) and return exactly the block sequence of
`multiply_standard`, for all operands, below, at and above the 32-block and 100-block
limits. -/
theorem C9_cross_algorithm_agreement (fuel : Nat) (a b : List Nat)
    (hf : max a.length b.length < fuel) :
    multiply_karatsuba fuel a b = some (multiply_standard a b) ∧
      multiply_toom_cook_3 fuel a b = some (multiply_standard a b) :=
  ⟨multiply_karatsuba_eq fuel a b hf, multiply_toom_cook_3_eq fuel a b hf⟩

theorem C9_cross_algorithm_agreement_witness :
    multiply_karatsuba 102 (List.replicate 101 7) (List.replicate 101 9)
        = some (multiply_standard (List.replicate 101 7) (List.replicate 101 9)) ∧
      multiply_toom_cook_3 102 (List.replicate 101 7) (List.replicate 101 9)
        = some (multiply_standard (List.replicate 101 7) (List.replicate 101 9)) :=
  C9_cross_algorithm_agreement 102 (List.replicate 101 7) (List.replicate 101 9)
    (by simp)

/-- C10: the dispatcher policy. With `bound = max(size1, size2)` and
`total = size1 + size2`, `operator*` calls `multiply_standard_optimized` if
`bound <= 2048` or `total <= 2048`, otherwise `multiply_karatsuba_optimized` if
`bound <= 200000` or `total <= 200000`, otherwise `multiply_toom_cook_3`; a 3000-block
by 3000-block product takes the Karatsuba-style branch. -/
theorem C10_dispatcher_policy (fuel : Nat) (n1 n2 : List Nat) :
    select_algorithm n1.length n2.length =
      (if max n1.length n2.length ≤ 2048 ∨ n1.length + n2.length ≤ 2048 then
        Algorithm.standard
      else if max n1.length n2.length ≤ 200000 ∨ n1.length + n2.length ≤ 200000 then
        Algorithm.karatsuba
      else Algorithm.toom_cook) ∧
    operator_mul fuel n1 n2 =
      (if max n1.length n2.length ≤ 2048 ∨ n1.length + n2.length ≤ 2048 then
        some (multiply_standard_optimized n1 n2)
      else if max n1.length n2.length ≤ 200000 ∨ n1.length + n2.length ≤ 200000 then
        multiply_karatsuba_optimized fuel n1 n2
      else multiply_toom_cook_3 fuel n1 n2) ∧
    select_algorithm 3000 3000 = Algorithm.karatsuba := by
  refine ⟨rfl, ?_, by decide⟩
  unfold operator_mul select_algorithm DIGIT_THRESHOLD_STANDARD DIGIT_THRESHOLD_KARATSUBA
  simp only
  split_ifs <;> rfl

/-! ## Further claims: the dispatcher and the refinements -/

theorem Canonical_replicate (n x : Nat) (h0 : 0 < x) (hx : x < BASE) :
    Canonical (List.replicate (n + 1) x) := by
  refine ⟨by simp [List.replicate_succ], ?_, ?_⟩
  · intro y hy
    rw [List.eq_of_mem_replicate hy]
    exact hx
  · intro h
    exfalso
    rw [List.getLast?_eq_getElem?, List.getElem?_replicate] at h
    simp at h
    omega

/-- C11: for canonical operands, whichever branch the dispatcher takes, `operator*`
returns (with a recursion budget above the larger block count) the block sequence that
`multiply_standard` returns on the same operands. -/
theorem C11_operator_mul_refines_standard (fuel : Nat) (a b : List Nat) (ha : Canonical a)
    (hb : Canonical b) (hf : max a.length b.length < fuel) :
    operator_mul fuel a b = some (multiply_standard a b) :=
  operator_mul_eq_standard fuel a b ha hb hf

/-- Two 3000-block operands: the dispatcher takes the Karatsuba-style branch and the
result is the one of `multiply_standard`. -/
theorem C11_operator_mul_refines_standard_witness :
    select_algorithm (List.replicate 3000 1).length (List.replicate 3000 1).length
        = Algorithm.karatsuba ∧
      operator_mul 3001 (List.replicate 3000 1) (List.replicate 3000 1)
        = some (multiply_standard (List.replicate 3000 1) (List.replicate 3000 1)) :=
  ⟨by simp only [List.length_replicate]; decide,
    C11_operator_mul_refines_standard 3001 (List.replicate 3000 1) (List.replicate 3000 1)
      (Canonical_replicate 2999 1 (by decide) (by decide))
      (Canonical_replicate 2999 1 (by decide) (by decide))
      (by simp only [List.length_replicate]; decide)⟩

/-- C16: `multiply_standard_optimized` refines `multiply_standard`: on canonical operands
the early exits (zero operand, one-block operand equal to 1), the skipped zero
multiplier blocks and the two-at-a-time unrolled inner loop return exactly the block
sequence of `multiply_standard`. -/
theorem C16_optimized_refines_standard (a b : List Nat) (ha : Canonical a)
    (hb : Canonical b) :
    multiply_standard_optimized a b = multiply_standard a b :=
  multiply_standard_optimized_eq a b ha hb

/-- Operands with a zero multiplier block, an odd and an even number of columns. -/
theorem C16_optimized_refines_standard_witness :
    multiply_standard_optimized [999999999999999999, 0, 7] [5, 999999999999999999, 3]
      = multiply_standard [999999999999999999, 0, 7] [5, 999999999999999999, 3] :=
  C16_optimized_refines_standard [999999999999999999, 0, 7] [5, 999999999999999999, 3]
    (by decide) (by decide)

/-- C17: `multiply_karatsuba_optimized` never fails to return: for all operands, of
equal or unequal block counts, every nested call is on operands with a smaller larger
block count, so a recursion budget above the larger block count is never used up, and
the call returns exactly `multiply_standard_optimized(a, b)`. -/
theorem C17_karatsuba_optimized_returns (fuel : Nat) (a b : List Nat)
    (hf : max a.length b.length < fuel) :
    multiply_karatsuba_optimized fuel a b = some (multiply_standard_optimized a b) :=
  multiply_karatsuba_optimized_eq fuel a b hf

/-- Operands of 40 and 35 blocks, both above the 32-block base case. -/
theorem C17_karatsuba_optimized_returns_witness :
    multiply_karatsuba_optimized 41 (List.replicate 40 3) (List.replicate 35 9)
      = some (multiply_standard_optimized (List.replicate 40 3) (List.replicate 35 9)) :=
  C17_karatsuba_optimized_returns 41 (List.replicate 40 3) (List.replicate 35 9) (by simp)

/-- The test on `total_size` adds nothing to the test on `max_size`: the Standard entry
point is selected exactly when the larger block count is at most 2048. -/
theorem select_algorithm_standard_iff (size1 size2 : Nat) :
    select_algorithm size1 size2 = Algorithm.standard ↔ max size1 size2 ≤ 2048 := by
  unfold select_algorithm DIGIT_THRESHOLD_STANDARD DIGIT_THRESHOLD_KARATSUBA
  simp only
  constructor
  · intro h
    split at h
    · next hc => omega
    · split at h <;> cases h
  · intro h
    rw [if_pos (Or.inl h)]

/-- C19: a huge operand (3000 blocks) times a tiny one (a single block) does not select
the Standard entry point: `operator*` calls `multiply_karatsuba_optimized` (and it is
the base case of that function, one operand of at most 32 blocks, that hands the product
to `multiply_standard_optimized`). More than 200000 blocks times one block selects
`multiply_toom_cook_3`. -/
theorem C19_unbalanced_not_standard :
    select_algorithm 3000 1 = Algorithm.karatsuba ∧
    select_algorithm 1 3000 = Algorithm.karatsuba ∧
    select_algorithm 200001 1 = Algorithm.toom_cook ∧
    (∀ fuel, operator_mul fuel (List.replicate 3000 7) [5]
      = multiply_karatsuba_optimized fuel (List.replicate 3000 7) [5]) ∧
    (∀ fuel, operator_mul (fuel + 1) (List.replicate 3000 7) [5]
      = some (multiply_standard_optimized (List.replicate 3000 7) [5])) := by
  have h : select_algorithm (List.replicate 3000 7).length [5].length = Algorithm.karatsuba := by
    simp only [List.length_replicate, List.length_singleton]
    decide
  have hop : ∀ fuel, operator_mul fuel (List.replicate 3000 7) [5]
      = multiply_karatsuba_optimized fuel (List.replicate 3000 7) [5] := by
    intro fuel
    unfold operator_mul
    rw [h]
  refine ⟨by decide, by decide, by decide, hop, ?_⟩
  intro fuel
  rw [hop, multiply_karatsuba_optimized_base fuel _ _ (Or.inr (by simp))]

/-! ## No overflow -/

theorem add_state_max (n1 n2 : List Nat) :
    add_state n1 n2 (max n1.length n2.length) = add_loops n1 n2 := by
  unfold add_state add_loops
  have hmax : (if n1.length ≥ n2.length then n1.length else n2.length)
      = max n1.length n2.length := by split <;> omega
  have hmin : min (max n1.length n2.length)
      (if n1.length ≤ n2.length then n1.length else n2.length)
      = (if n1.length ≤ n2.length then n1.length else n2.length) := by split <;> omega
  simp only [hmax, hmin]

theorem AddInv_add_state (n1 n2 : List Nat) (h1 : Bounded n1) (h2 : Bounded n2) (k : Nat)
    (hk : k ≤ max n1.length n2.length) :
    AddInv n1 n2 (max n1.length n2.length + 1) k (add_state n1 n2 k) := by
  have hmax : (if n1.length ≥ n2.length then n1.length else n2.length)
      = max n1.length n2.length := by split <;> omega
  unfold add_state
  simp only [hmax]
  generalize hm : (if n1.length ≤ n2.length then n1.length else n2.length) = m
  have hm2 : m ≤ max n1.length n2.length := by rw [← hm]; split <;> omega
  have hfirst := AddInv_first_loop n1 n2 (max n1.length n2.length + 1) h1 h2
    (min k m) (by omega)
  by_cases hkm : k ≤ m
  · rw [show k - m = 0 by omega, Nat.min_eq_left hkm] at *
    simpa using hfirst
  · rw [Nat.min_eq_right (by omega)] at hfirst ⊢
    have hsecond := AddInv_second_loop n1 n2 (max n1.length n2.length + 1) m _ h1 h2
      (by rw [hm]) hfirst (k - m) (by omega)
    rw [show m + (k - m) = k by omega] at hsecond
    exact hsecond

/-- C14: no overflow in addition. For operands whose blocks are all below `10^18`, at
every block index `k` up to `max_size` the carry is 0 or 1, the sum
`left_block + right_block + carry` of the first loop is below `2^64`, and so are the
two additions `sum[k] += longer[k]` and `sum[k] += carry` of the second loop and the
final `sum[max_size] += carry`; the sums are therefore the exact integer sums. -/
theorem C14_addition_no_overflow (n1 n2 : List Nat) (h1 : Bounded n1) (h2 : Bounded n2)
    (k : Nat) (hk : k ≤ max n1.length n2.length) :
    ((add_state n1 n2 k).2 = 0 ∨ (add_state n1 n2 k).2 = 1) ∧
    n1.getD k 0 + n2.getD k 0 + (add_state n1 n2 k).2 < U64 ∧
    (add_state n1 n2 k).1.getD k 0
        + (if n1.length ≥ n2.length then n1.getD k 0 else n2.getD k 0) < U64 ∧
    (add_state n1 n2 k).1.getD k 0
        + (if n1.length ≥ n2.length then n1.getD k 0 else n2.getD k 0)
        + (add_state n1 n2 k).2 < U64 ∧
    add_state n1 n2 (max n1.length n2.length) = add_loops n1 n2 := by
  have inv := AddInv_add_state n1 n2 h1 h2 k hk
  have hc := inv.carry_le
  have ha := Bounded_getD n1 h1 k
  have hb := Bounded_getD n2 h2 k
  have hz := inv.zero_above k (Nat.le_refl k)
  have hB : 2 * BASE + 1 < U64 := by decide
  refine ⟨by omega, by omega, ?_, ?_, add_state_max n1 n2⟩
  · rw [hz]; split <;> omega
  · rw [hz]; split <;> omega

theorem C14_addition_no_overflow_witness :
    ((add_state [999999999999999999, 999999999999999999] [999999999999999999] 1).2 = 0 ∨
      (add_state [999999999999999999, 999999999999999999] [999999999999999999] 1).2 = 1) ∧
    List.getD [999999999999999999, 999999999999999999] 1 0
        + List.getD [999999999999999999] 1 0
        + (add_state [999999999999999999, 999999999999999999] [999999999999999999] 1).2
      < U64 ∧
    (add_state [999999999999999999, 999999999999999999] [999999999999999999] 1).1.getD 1 0
        + (if [999999999999999999, 999999999999999999].length ≥ [999999999999999999].length
            then List.getD [999999999999999999, 999999999999999999] 1 0
            else List.getD [999999999999999999] 1 0) < U64 ∧
    (add_state [999999999999999999, 999999999999999999] [999999999999999999] 1).1.getD 1 0
        + (if [999999999999999999, 999999999999999999].length ≥ [999999999999999999].length
            then List.getD [999999999999999999, 999999999999999999] 1 0
            else List.getD [999999999999999999] 1 0)
        + (add_state [999999999999999999, 999999999999999999] [999999999999999999] 1).2
      < U64 ∧
    add_state [999999999999999999, 999999999999999999] [999999999999999999]
        (max [999999999999999999, 999999999999999999].length [999999999999999999].length)
      = add_loops [999999999999999999, 999999999999999999] [999999999999999999] :=
  C14_addition_no_overflow [999999999999999999, 999999999999999999] [999999999999999999]
    (by decide) (by decide) 1 (by decide)

/-- The states of `operator+` follow one another by the loop bodies: the first loop body
below `min_size`, the second from there on. -/
theorem add_state_succ (n1 n2 : List Nat) (k : Nat) :
    add_state n1 n2 (k + 1) =
      if k < (if n1.length ≤ n2.length then n1.length else n2.length) then
        add_step_both n1 n2 (add_state n1 n2 k) k
      else add_step_rest n1 n2 (add_state n1 n2 k) k := by
  unfold add_state
  simp only
  generalize (if n1.length ≤ n2.length then n1.length else n2.length) = m
  by_cases hk : k < m
  · rw [if_pos hk, Nat.min_eq_left (by omega), Nat.min_eq_left (by omega),
      show k + 1 - m = 0 by omega, show k - m = 0 by omega, foldl_range_succ]
    rfl
  · rw [if_neg hk, Nat.min_eq_right (by omega), Nat.min_eq_right (by omega),
      show k + 1 - m = (k - m) + 1 by omega, List.range_succ, List.map_append,
      List.foldl_append]
    simp only [List.map_cons, List.map_nil, List.foldl_cons, List.foldl_nil]
    rw [show m + (k - m) = k by omega]

theorem RowInv_standard_rows (vec1 vec2 : List Nat) (h1 : Bounded vec1) (h2 : Bounded vec2)
    (i : Nat) (hi : i ≤ vec1.length) : RowInv vec1 vec2 i (standard_rows vec1 vec2 i) :=
  RowInv_loop vec1 vec2 h1 h2 i hi

theorem MulInv_inner_state (vec1 vec2 : List Nat) (h1 : Bounded vec1) (h2 : Bounded vec2)
    (i j : Nat) (hi : i < vec1.length) (hj : j ≤ vec2.length) :
    MulInv (vec1.getD i 0) vec2 i (standard_rows vec1 vec2 i) j (inner_state vec1 vec2 i j) :=
  MulInv_loop (vec1.getD i 0) vec2 i _ (Bounded_getD vec1 h1 i) h2
    (RowInv_standard_rows vec1 vec2 h1 h2 i (by omega)).bounded j
    (by rw [(RowInv_standard_rows vec1 vec2 h1 h2 i (by omega)).len_eq]; omega)

theorem optimized_rows_eq_standard_rows (vec1 vec2 : List Nat) (h1 : Bounded vec1)
    (h2 : Bounded vec2) (i : Nat) (hi : i ≤ vec1.length) :
    optimized_rows vec1 vec2 i = standard_rows vec1 vec2 i :=
  optimized_rows_eq vec1 vec2 h1 h2 i hi

/-- After `t` iterations the unrolled loop is at column `j + 2 t`, in the state the
plain loop reaches after the columns `j .. j + 2 t - 1`. -/
theorem unrolled_loop_state (x : Nat) (vec2 : List Nat) (i : Nat) (t j : Nat)
    (st : List Nat × Nat) (ht : j + 2 * t ≤ vec2.length) :
    unrolled_loop x vec2 i t j st =
      (j + 2 * t, ((List.range (2 * t)).map (j + ·)).foldl (mul_step x vec2 i) st) := by
  induction t generalizing j st with
  | zero => rfl
  | succ t ih =>
    unfold unrolled_loop
    rw [if_pos (by omega), ih (j + 2) _ (by omega),
      show 2 * (t + 1) = 2 * t + 1 + 1 by omega, map_add_range_succ, map_add_range_succ]
    simp only [List.foldl_cons]
    rw [show j + 2 + 2 * t = j + (2 * t + 1 + 1) by omega]

/-- C15: no overflow in schoolbook multiplication. For operands whose blocks are all
below `10^18`, in every row `i` and column `j` of `multiply_standard` the value
`first[i] * second[j] + accumulator[i+j] + carry` is below `2^128`, the new carry is
below `10^18` (so narrowing it to 64 bits loses nothing), the final
`result[i + size2] += carry` stays below `2^64`, and the accumulator has all its blocks
below `10^18` after the row. `multiply_standard_optimized` has the same accumulator
after every row, and its unrolled loop goes through the same states (after `t`
iterations, the state of the plain loop at column `2 t`), so the same bounds hold for
it. -/
theorem C15_multiplication_no_overflow (vec1 vec2 : List Nat) (h1 : Bounded vec1)
    (h2 : Bounded vec2) (i j : Nat) (hi : i < vec1.length) (hj : j < vec2.length) :
    vec1.getD i 0 * vec2.getD j 0 + (inner_state vec1 vec2 i j).1.getD (i + j) 0
        + (inner_state vec1 vec2 i j).2 < U128 ∧
    (vec1.getD i 0 * vec2.getD j 0 + (inner_state vec1 vec2 i j).1.getD (i + j) 0
        + (inner_state vec1 vec2 i j).2) / BASE < BASE ∧
    (inner_state vec1 vec2 i (j + 1)).2 < BASE ∧
    (inner_state vec1 vec2 i vec2.length).1.getD (i + vec2.length) 0
        + (inner_state vec1 vec2 i vec2.length).2 < U64 ∧
    Bounded (standard_rows vec1 vec2 (i + 1)) ∧
    optimized_rows vec1 vec2 i = standard_rows vec1 vec2 i ∧
    optimized_rows vec1 vec2 (i + 1) = standard_rows vec1 vec2 (i + 1) ∧
    (∀ t, 2 * t ≤ vec2.length →
      unrolled_loop (vec1.getD i 0) vec2 i t 0 (optimized_rows vec1 vec2 i, 0)
        = (2 * t, inner_state vec1 vec2 i (2 * t))) := by
  have minv := MulInv_inner_state vec1 vec2 h1 h2 i j hi (by omega)
  have minv1 := MulInv_inner_state vec1 vec2 h1 h2 i (j + 1) hi (by omega)
  have mend := MulInv_inner_state vec1 vec2 h1 h2 i vec2.length hi (Nat.le_refl _)
  have rinv := RowInv_standard_rows vec1 vec2 h1 h2 i (by omega)
  have rinv1 := RowInv_standard_rows vec1 vec2 h1 h2 (i + 1) (by omega)
  have hx := Bounded_getD vec1 h1 i
  have hv := Bounded_getD vec2 h2 j
  have hr := Bounded_getD _ minv.bounded (i + j)
  have hc := minv.carry_lt
  have hprod : vec1.getD i 0 * vec2.getD j 0 ≤ (BASE - 1) * (BASE - 1) :=
    Nat.mul_le_mul (by omega) (by omega)
  have hsq : (BASE - 1) * (BASE - 1) + (BASE - 1) + (BASE - 1) < BASE * BASE := by decide
  have ht : vec1.getD i 0 * vec2.getD j 0 + (inner_state vec1 vec2 i j).1.getD (i + j) 0
      + (inner_state vec1 vec2 i j).2 < BASE * BASE := by omega
  have hopt := optimized_rows_eq_standard_rows vec1 vec2 h1 h2 i (by omega)
  refine ⟨Nat.lt_of_lt_of_le ht BASE_sq_le_U128, Nat.div_lt_of_lt_mul ht, minv1.carry_lt, ?_,
    rinv1.bounded, hopt, optimized_rows_eq_standard_rows vec1 vec2 h1 h2 (i + 1) (by omega),
    ?_⟩
  · have hz : (inner_state vec1 vec2 i vec2.length).1.getD (i + vec2.length) 0 = 0 := by
      rw [mend.above _ (Nat.le_refl _), rinv.zero_above _ (Nat.le_refl _)]
    rw [hz, Nat.zero_add]
    exact Nat.lt_trans mend.carry_lt BASE_lt_U64_one
  · intro t ht2
    rw [hopt, unrolled_loop_state _ _ _ t 0 _ (by omega)]
    simp only [Nat.zero_add, List.map_id_fun', id_eq]
    rfl

/-- The last row and column of a 2-block by 3-block product. -/
theorem C15_multiplication_no_overflow_witness :
    List.getD [7, 999999999999999999] 1 0 * List.getD [3, 0, 999999999999999999] 2 0
        + (inner_state [7, 999999999999999999] [3, 0, 999999999999999999] 1 2).1.getD (1 + 2) 0
        + (inner_state [7, 999999999999999999] [3, 0, 999999999999999999] 1 2).2 < U128 ∧
    (List.getD [7, 999999999999999999] 1 0 * List.getD [3, 0, 999999999999999999] 2 0
        + (inner_state [7, 999999999999999999] [3, 0, 999999999999999999] 1 2).1.getD (1 + 2) 0
        + (inner_state [7, 999999999999999999] [3, 0, 999999999999999999] 1 2).2) / BASE
      < BASE ∧
    (inner_state [7, 999999999999999999] [3, 0, 999999999999999999] 1 (2 + 1)).2 < BASE ∧
    (inner_state [7, 999999999999999999] [3, 0, 999999999999999999] 1
          (List.length [3, 0, 999999999999999999])).1.getD
          (1 + List.length [3, 0, 999999999999999999]) 0
        + (inner_state [7, 999999999999999999] [3, 0, 999999999999999999] 1
          (List.length [3, 0, 999999999999999999])).2 < U64 ∧
    Bounded (standard_rows [7, 999999999999999999] [3, 0, 999999999999999999] (1 + 1)) ∧
    optimized_rows [7, 999999999999999999] [3, 0, 999999999999999999] 1
      = standard_rows [7, 999999999999999999] [3, 0, 999999999999999999] 1 ∧
    optimized_rows [7, 999999999999999999] [3, 0, 999999999999999999] (1 + 1)
      = standard_rows [7, 999999999999999999] [3, 0, 999999999999999999] (1 + 1) ∧
    (∀ t, 2 * t ≤ List.length [3, 0, 999999999999999999] →
      unrolled_loop (List.getD [7, 999999999999999999] 1 0) [3, 0, 999999999999999999] 1 t 0
          (optimized_rows [7, 999999999999999999] [3, 0, 999999999999999999] 1, 0)
        = (2 * t, inner_state [7, 999999999999999999] [3, 0, 999999999999999999] 1 (2 * t))) :=
  C15_multiplication_no_overflow [7, 999999999999999999] [3, 0, 999999999999999999]
    (by decide) (by decide) 1 2 (by decide) (by decide)

/-! ## Recursion depth of the Karatsuba-style functions -/

/-- A budget of `f + 1` frames is enough for `multiply_karatsuba` when the larger block
count is at most `29 * 2^f + 3`: every nested call is on operands of at most
`(max_size + 1) / 2 + 1` blocks. -/
theorem multiply_karatsuba_log_budget (f : Nat) (vec1 vec2 : List Nat)
    (hf : max vec1.length vec2.length ≤ 29 * 2 ^ f + 3) :
    multiply_karatsuba (f + 1) vec1 vec2 = some (multiply_standard vec1 vec2) := by
  induction f generalizing vec1 vec2 with
  | zero =>
    apply multiply_karatsuba_base
    have h1 := Nat.le_max_left vec1.length vec2.length
    simp only [pow_zero] at hf
    omega
  | succ f ih =>
    by_cases h : vec1.length ≤ 32 ∨ vec2.length ≤ 32
    · exact multiply_karatsuba_base (f + 1) vec1 vec2 h
    · have key : ∀ (x y : List Nat) (g : List Nat → Option (List Nat)),
          max x.length y.length ≤ 29 * 2 ^ f + 3 →
          (multiply_karatsuba (f + 1) x y).bind g = g (multiply_standard x y) := by
        intro x y g hxy
        rw [ih x y hxy]
        rfl
      unfold multiply_karatsuba
      rw [if_neg h]
      simp only
      rw [pow_succ] at hf
      generalize 2 ^ f = P at *
      have hM : ∀ M : Nat, M = (if max vec1.length vec2.length % 2 = 1 then
          max vec1.length vec2.length + 1 else max vec1.length vec2.length) →
          M / 2 + 1 ≤ 29 * P + 3 ∧ M / 2 ≤ M ∧ M - M / 2 ≤ M / 2 := by
        intro M hM
        split at hM <;> omega
      obtain ⟨hlt, hle, hhigh⟩ := hM _ rfl
      have hadd := fun x y => (operator_add_length x y).2
      rw [key, key, key]
      · have h1 := hadd
          (List.take ((if max vec1.length vec2.length % 2 = 1 then
            max vec1.length vec2.length + 1 else max vec1.length vec2.length) / 2)
            (resize vec1 (if max vec1.length vec2.length % 2 = 1 then
              max vec1.length vec2.length + 1 else max vec1.length vec2.length)))
          (List.drop ((if max vec1.length vec2.length % 2 = 1 then
            max vec1.length vec2.length + 1 else max vec1.length vec2.length) / 2)
            (resize vec1 (if max vec1.length vec2.length % 2 = 1 then
              max vec1.length vec2.length + 1 else max vec1.length vec2.length)))
        have h2 := hadd
          (List.take ((if max vec1.length vec2.length % 2 = 1 then
            max vec1.length vec2.length + 1 else max vec1.length vec2.length) / 2)
            (resize vec2 (if max vec1.length vec2.length % 2 = 1 then
              max vec1.length vec2.length + 1 else max vec1.length vec2.length)))
          (List.drop ((if max vec1.length vec2.length % 2 = 1 then
            max vec1.length vec2.length + 1 else max vec1.length vec2.length) / 2)
            (resize vec2 (if max vec1.length vec2.length % 2 = 1 then
              max vec1.length vec2.length + 1 else max vec1.length vec2.length)))
        simp only [List.length_take, List.length_drop, resize_length] at h1 h2
        omega
      · simp only [List.length_drop, resize_length]
        omega
      · simp only [List.length_take, resize_length]
        omega

theorem karatsuba_depth_le_log (a b : List Nat) :
    karatsuba_depth_le a b (Nat.log2 (max a.length b.length) + 1) := by
  unfold karatsuba_depth_le
  rw [multiply_karatsuba_log_budget]
  · rfl
  · have h := @Nat.lt_log2_self (max a.length b.length)
    rw [pow_succ] at h ⊢
    generalize 2 ^ (max a.length b.length).log2 = P at *
    omega

theorem karatsuba_optimized_depth_le_linear (a b : List Nat) :
    karatsuba_optimized_depth_le a b (max a.length b.length) := by
  unfold karatsuba_optimized_depth_le
  rw [multiply_karatsuba_optimized_eq _ a b (Nat.lt_succ_self _)]
  rfl

theorem create_subrange_whole (vec : List Nat) (S : Nat) (h0 : 0 < vec.length)
    (hS : vec.length ≤ S) : create_subrange vec 0 S = vec := by
  unfold create_subrange
  rw [if_neg (by omega)]
  simp only
  rw [if_neg (by omega), Nat.min_eq_right hS, List.take_of_length_le (Nat.le_refl _)]
  rfl

theorem create_subrange_beyond (vec : List Nat) (S E : Nat) (hS : vec.length ≤ S) :
    create_subrange vec S E = [0] := by
  unfold create_subrange
  rw [if_pos hS]

theorem create_subrange_tail (vec : List Nat) (S : Nat) (hS : S < vec.length) :
    create_subrange vec S vec.length = vec.drop S := by
  unfold create_subrange
  rw [if_neg (by omega)]
  simp only
  rw [Nat.min_self, if_neg (by omega), List.take_of_length_le (Nat.le_refl _)]

/-- Against a 33-block operand, every level of `multiply_karatsuba_optimized` splits 33
blocks off the long operand and calls itself on the sum of the two parts, which has at
least `size1 - 33` blocks: a budget of `fuel` frames is used up when the long operand
has `33 * (fuel + 1)` blocks or more. -/
theorem multiply_karatsuba_optimized_none (fuel : Nat) (a b : List Nat) (hb : Bounded b)
    (hlb : b.length = 33) (hla : 33 * (fuel + 1) ≤ a.length) :
    multiply_karatsuba_optimized fuel a b = none := by
  induction fuel generalizing a with
  | zero => rfl
  | succ fuel ih =>
    have hsplit : (if (max a.length b.length + 1) / 2 > min a.length b.length then
        min a.length b.length else (max a.length b.length + 1) / 2) = 33 := by
      rw [hlb]; split <;> omega
    have hbne : b ≠ [] := by
      intro e; rw [e] at hlb; simp at hlb
    unfold multiply_karatsuba_optimized
    simp only
    rw [if_neg (by omega), hsplit, create_subrange_whole b 33 (by omega) (by omega),
      create_subrange_beyond b 33 b.length (by omega),
      create_subrange_tail a 33 (by omega), operator_add_zero_right b hbne hb]
    have hlen : ((List.drop 33 a).length = 1 ∧ (List.drop 33 a).getD 0 0 = 0) ∨
        (List.drop 33 a).length = 0 ↔ False := by
      rw [List.length_drop]
      constructor
      · intro h; omega
      · intro h; exact h.elim
    simp only [hlen, false_and, if_false, false_or, List.length_singleton, List.getD_cons_zero,
      true_and, true_or, if_true]
    have hz1 : multiply_karatsuba_optimized fuel
        (operator_add (create_subrange a 0 33) (List.drop 33 a)) b = none := by
      apply ih
      have := (operator_add_length (create_subrange a 0 33) (List.drop 33 a)).1
      rw [List.length_drop] at this
      have h2 := Nat.le_max_right (create_subrange a 0 33).length (a.length - 33)
      omega
    rw [hz1]
    cases multiply_karatsuba_optimized fuel (create_subrange a 0 33) b <;> rfl

theorem pow_bound_aux (c : Nat) : c * (c + 12) + 15 ≤ 2 ^ (c + 6) := by
  induction c with
  | zero => decide
  | succ c ih =>
    rw [show c + 1 + 6 = (c + 6) + 1 by omega, pow_succ]
    nlinarith [ih]

theorem Bounded_replicate (n x : Nat) (hx : x < BASE) : Bounded (List.replicate n x) := by
  intro y hy
  rw [List.eq_of_mem_replicate hy]
  exact hx

/-- C18, as stated, fails for `multiply_karatsuba_optimized`: no constant `c` bounds the
depth of its nested calls by `c * (log2(n) + 1)` for all operands, `n` being the larger
block count. -/
theorem C18_optimized_depth_not_logarithmic :
    ¬ ∃ c : Nat, ∀ a b : List Nat,
      karatsuba_optimized_depth_le a b (c * (Nat.log2 (max a.length b.length) + 1)) := by
  rintro ⟨c, h⟩
  have hc := h (List.replicate (33 * 2 ^ (c + 6)) 1) (List.replicate 33 1)
  unfold karatsuba_optimized_depth_le at hc
  have hpow := pow_bound_aux c
  have hpos : 0 < 2 ^ (c + 6) := Nat.pow_pos (by decide)
  have hmax : max (List.replicate (33 * 2 ^ (c + 6)) 1).length (List.replicate 33 1).length
      = 33 * 2 ^ (c + 6) := by
    simp only [List.length_replicate]
    omega
  rw [hmax] at hc
  have hlog : Nat.log2 (33 * 2 ^ (c + 6)) < c + 12 := by
    rw [Nat.log2_lt (by omega)]
    have e : 2 ^ (c + 12) = 2 ^ 6 * 2 ^ (c + 6) := by
      rw [← pow_add]
      congr 1
      omega
    rw [e]
    have : (33 : Nat) < 2 ^ 6 := by decide
    exact Nat.mul_lt_mul_of_pos_right this hpos
  have hle : c * (Nat.log2 (33 * 2 ^ (c + 6)) + 1) ≤ c * (c + 12) :=
    Nat.mul_le_mul_left c (by omega)
  rw [multiply_karatsuba_optimized_none _ _ _ (Bounded_replicate 33 1 (by decide))
    (by simp) (by rw [List.length_replicate]; omega)] at hc
  simp at hc

/-- C18, amended: the nested calls of `multiply_karatsuba` go at most `log2(n) + 1` deep
(`n` the larger block count, so `c = 1`); those of `multiply_karatsuba_optimized` go at
most `n` deep, and that bound is linear for good: against a 33-block operand of ones, an
operand of `33 * (k + 2)` ones takes the nesting deeper than `k`. -/
theorem C18_depth_bounds :
    (∀ a b : List Nat, karatsuba_depth_le a b (1 * (Nat.log2 (max a.length b.length) + 1))) ∧
    (∀ a b : List Nat, karatsuba_optimized_depth_le a b (max a.length b.length)) ∧
    (∀ k : Nat, ¬ karatsuba_optimized_depth_le
      (List.replicate (33 * (k + 2)) 1) (List.replicate 33 1) k) := by
  refine ⟨?_, karatsuba_optimized_depth_le_linear, ?_⟩
  · intro a b
    rw [Nat.one_mul]
    exact karatsuba_depth_le_log a b
  · intro k
    unfold karatsuba_optimized_depth_le
    rw [multiply_karatsuba_optimized_none _ _ _ (Bounded_replicate 33 1 (by decide))
      (by simp) (by rw [List.length_replicate])]
    simp

/-! ## Decimal numerals -/

theorem toDigitsCore_append (fuel n : Nat) (ds : List Char) :
    Nat.toDigitsCore 10 fuel n ds = Nat.toDigitsCore 10 fuel n [] ++ ds := by
  induction fuel generalizing n ds with
  | zero => rfl
  | succ fuel ih =>
    simp only [Nat.toDigitsCore]
    split
    · rfl
    · rw [ih (n / 10) (Nat.digitChar (n % 10) :: ds), ih (n / 10) [Nat.digitChar (n % 10)]]
      simp

theorem toDigitsCore_fuel (f1 f2 n : Nat) (ds : List Char) (h1 : n < f1) (h2 : n < f2) :
    Nat.toDigitsCore 10 f1 n ds = Nat.toDigitsCore 10 f2 n ds := by
  induction f1 generalizing f2 n ds with
  | zero => omega
  | succ f1 ih =>
    cases f2 with
    | zero => omega
    | succ f2 =>
      simp only [Nat.toDigitsCore]
      split
      · rfl
      · next hne =>
        have : n / 10 < n := Nat.div_lt_self (by omega) (by decide)
        exact ih f2 (n / 10) _ (by omega) (by omega)

theorem toDigits_lt_ten (n : Nat) (h : n < 10) : Nat.toDigits 10 n = [Nat.digitChar n] := by
  unfold Nat.toDigits
  simp only [Nat.toDigitsCore]
  rw [if_pos (by omega), Nat.mod_eq_of_lt h]

theorem toDigits_ge_ten (n : Nat) (h : 10 ≤ n) :
    Nat.toDigits 10 n = Nat.toDigits 10 (n / 10) ++ [Nat.digitChar (n % 10)] := by
  have e : Nat.toDigits 10 n = Nat.toDigitsCore 10 n (n / 10) [Nat.digitChar (n % 10)] := by
    unfold Nat.toDigits
    simp only [Nat.toDigitsCore]
    rw [if_neg (by omega)]
  rw [e, toDigitsCore_append,
    toDigitsCore_fuel n (n / 10 + 1) (n / 10) [] (Nat.div_lt_self (by omega) (by decide))
      (Nat.lt_succ_self _)]
  rfl

theorem fixed_width_zero (e : Nat) : fixed_width e 0 = List.replicate e '0' := by
  induction e with
  | zero => rfl
  | succ e ih =>
    show fixed_width e (0 / 10) ++ [Nat.digitChar (0 % 10)] = _
    rw [Nat.zero_div, ih, List.replicate_succ']
    rfl

/-- The numeral of `x + 10^e * y` is the numeral of `y` followed by the `e` digits of
`x`. -/
theorem toDigits_add_pow_mul (e x y : Nat) (hx : x < 10 ^ e) (hy : 0 < y) :
    Nat.toDigits 10 (x + 10 ^ e * y) = Nat.toDigits 10 y ++ fixed_width e x := by
  induction e generalizing x with
  | zero =>
    simp only [pow_zero, Nat.lt_one_iff] at hx
    subst hx
    simp [fixed_width]
  | succ e ih =>
    have hpos : 0 < 10 ^ e := Nat.pow_pos (by decide)
    have e10 : 10 ^ (e + 1) * y = 10 * (10 ^ e * y) := by
      rw [pow_succ]; ring
    have hz : 0 < 10 ^ e * y := Nat.mul_pos hpos hy
    rw [e10]
    generalize 10 ^ e * y = z at *
    have hge : 10 ≤ x + 10 * z := by omega
    have hdiv : (x + 10 * z) / 10 = x / 10 + z := by omega
    have hmod : (x + 10 * z) % 10 = x % 10 := by omega
    rw [toDigits_ge_ten _ hge, hdiv, hmod, ih (x / 10) (by rw [pow_succ] at hx; omega)]
    simp [fixed_width]

theorem toDigits_length_pos (n : Nat) : 0 < (Nat.toDigits 10 n).length := by
  by_cases h : n < 10
  · rw [toDigits_lt_ten n h]; simp
  · rw [toDigits_ge_ten n (by omega)]; simp

/-- Left-padding the numeral of `x < 10^e` with zeros to `e` characters gives the `e`
digits of `x`; the numeral has at most `e` characters. -/
theorem pad_toDigits (e x : Nat) (he : 0 < e) (hx : x < 10 ^ e) :
    (Nat.toDigits 10 x).length ≤ e ∧
      List.replicate (e - (Nat.toDigits 10 x).length) '0' ++ Nat.toDigits 10 x
        = fixed_width e x := by
  induction e generalizing x with
  | zero => omega
  | succ e ih =>
    by_cases h : x < 10
    · rw [toDigits_lt_ten x h]
      refine ⟨by simp, ?_⟩
      show _ = fixed_width e (x / 10) ++ [Nat.digitChar (x % 10)]
      rw [Nat.div_eq_of_lt h, Nat.mod_eq_of_lt h, fixed_width_zero]
      simp
    · have he0 : 0 < e := by
        rcases Nat.eq_zero_or_pos e with h0 | h0
        · subst h0; simp at hx; omega
        · exact h0
      obtain ⟨hl, hp⟩ := ih (x / 10) he0 (by rw [pow_succ] at hx; omega)
      rw [toDigits_ge_ten x (by omega)]
      refine ⟨by simp; omega, ?_⟩
      show _ = fixed_width e (x / 10) ++ [Nat.digitChar (x % 10)]
      rw [← hp, List.length_append, List.length_singleton,
        show e + 1 - ((Nat.toDigits 10 (x / 10)).length + 1)
          = e - (Nat.toDigits 10 (x / 10)).length by omega, List.append_assoc]

theorem BASE_eq : BASE = 10 ^ 18 := rfl

theorem padded_block_eq (x : Nat) (hx : x < BASE) : padded_block x = fixed_width 18 x :=
  (pad_toDigits 18 x (by decide) hx).2

theorem padded_block_length (x : Nat) (hx : x < BASE) : (padded_block x).length = 18 := by
  have h := pad_toDigits 18 x (by decide) hx
  unfold padded_block u64_to_string EXPONENT
  rw [List.length_append, List.length_replicate]
  omega

theorem padded_blocks_concat (l : List Nat) (x : Nat) :
    padded_blocks (l ++ [x]) = padded_block x ++ padded_blocks l := by
  induction l with
  | nil => simp [padded_blocks]
  | cons y ys ih =>
    show padded_blocks (ys ++ [x]) ++ padded_block y = _
    rw [ih]
    simp [padded_blocks]

/-- The loop of `vector_to_string` over the first `m` blocks. -/
theorem vector_to_string_loop (vec : List Nat) (m : Nat) (hm : m ≤ vec.length) :
    (List.range m).foldl (vector_to_string_step vec EXPONENT) []
      = padded_blocks (vec.take m) := by
  induction m with
  | zero => rfl
  | succ m ih =>
    rw [foldl_range_succ, ih (by omega), List.take_succ,
      List.getElem?_eq_getElem (by omega)]
    simp only [Option.toList]
    rw [padded_blocks_concat]
    unfold vector_to_string_step padded_block
    rw [List.getD_eq_getElem?_getD, List.getElem?_eq_getElem (by omega)]
    rfl

/-- What `to_string` returns on a non-empty sequence: the top block unpadded, then the
lower blocks, each padded to 18 digits. -/
theorem to_string_eq (l : List Nat) (top : Nat) :
    to_string (l ++ [top]) = some (u64_to_string top ++ padded_blocks l) := by
  unfold to_string vector_to_string
  rw [if_neg (by simp)]
  simp only [List.length_append, List.length_singleton, Nat.add_sub_cancel]
  rw [vector_to_string_loop _ _ (by simp), List.take_left',
    List.getD_eq_getElem?_getD, List.getElem?_append_right (Nat.le_refl _)]
  · simp
  · rfl

theorem value_concat_pos (l : List Nat) (top : Nat) (h : 0 < top) : 0 < value (l ++ [top]) := by
  rw [value_append]
  simp only [value]
  have := Nat.pow_pos (n := l.length) BASE_pos
  have : 0 < BASE ^ l.length * (top + BASE * 0) := Nat.mul_pos this (by omega)
  omega

/-- The numeral of the number a sequence with a non-zero top block denotes. -/
theorem toDigits_value (l : List Nat) (top : Nat) (hl : Bounded l) (h : 0 < top) :
    Nat.toDigits 10 (value (l ++ [top])) = Nat.toDigits 10 top ++ padded_blocks l := by
  induction l with
  | nil => simp [value, padded_blocks]
  | cons x xs ih =>
    have hx : x < BASE := hl x (List.mem_cons_self _ _)
    have hxs : Bounded xs := fun y hy => hl y (List.mem_cons_of_mem _ hy)
    show Nat.toDigits 10 (x + BASE * value (xs ++ [top])) = _
    rw [BASE_eq, toDigits_add_pow_mul 18 x _ hx (value_concat_pos xs top h), ih hxs,
      ← padded_block_eq x hx]
    simp [padded_blocks]

theorem digitChar_ne_zero (n : Nat) (h0 : 0 < n) (h : n < 10) : Nat.digitChar n ≠ '0' := by
  interval_cases n <;> decide

/-- The numeral of a positive number does not start with `'0'`. -/
theorem toDigits_head (n : Nat) (h0 : 0 < n) : (Nat.toDigits 10 n).head? ≠ some '0' := by
  induction n using Nat.strong_induction_on with
  | _ n ih =>
    by_cases h : n < 10
    · rw [toDigits_lt_ten n h]
      simp only [List.head?_cons, ne_eq, Option.some.injEq]
      exact digitChar_ne_zero n h0 h
    · rw [toDigits_ge_ten n (by omega), List.head?_append_of_ne_nil _
        (List.ne_nil_of_length_pos (toDigits_length_pos _))]
      exact ih (n / 10) (Nat.div_lt_self h0 (by decide)) (by omega)

/-- On a canonical sequence `to_string` returns the decimal numeral of the number
denoted. -/
theorem to_string_Canonical (v : List Nat) (h : Canonical v) :
    to_string v = some (Nat.toDigits 10 (value v)) := by
  obtain ⟨hne, hbd, htop⟩ := h
  obtain ⟨l, top, rfl⟩ := exists_concat v hne
  rw [to_string_eq]
  by_cases h0 : top = 0
  · subst h0
    have := htop (by simp)
    have hl : l = [] := by
      cases l with
      | nil => rfl
      | cons y ys => simp at this
    subst hl
    rfl
  · rw [toDigits_value l top (fun y hy => hbd y (List.mem_append_left _ hy))
      (Nat.pos_of_ne_zero h0)]
    rfl

/-- C13: on a canonical block sequence `to_string` returns the decimal numeral of the
number denoted (the text of `Nat.repr`: no leading zero, `"0"` for zero), and that text
is the top block unpadded followed by the lower blocks, most significant first, each
padded with zeros to exactly 18 digits. -/
theorem C13_to_string_numeral (v : List Nat) (h : Canonical v) :
    to_string v = some (Nat.repr (value v)).toList ∧
    to_string v
      = some (u64_to_string (v.getD (v.length - 1) 0) ++ padded_blocks v.dropLast) ∧
    (∀ x ∈ v.dropLast, (padded_block x).length = 18) ∧
    ((Nat.repr (value v)).toList.head? = some '0' → (Nat.repr (value v)).toList = ['0']) := by
  refine ⟨to_string_Canonical v h, ?_, ?_, ?_⟩
  · obtain ⟨l, top, rfl⟩ := exists_concat v h.1
    rw [to_string_eq, List.dropLast_concat, List.getD_eq_getElem?_getD, List.length_append,
      List.length_singleton, Nat.add_sub_cancel,
      List.getElem?_append_right (Nat.le_refl _)]
    simp
  · intro x hx
    exact padded_block_length x (h.2.1 x (List.mem_of_mem_dropLast hx))
  · intro hh
    show Nat.toDigits 10 (value v) = ['0']
    by_cases h0 : value v = 0
    · rw [h0]; rfl
    · exact absurd hh (toDigits_head (value v) (Nat.pos_of_ne_zero h0))

theorem C13_to_string_numeral_witness :
    to_string [5, 0, 42] = some (Nat.repr (value [5, 0, 42])).toList ∧
    to_string [5, 0, 42]
      = some (u64_to_string (List.getD [5, 0, 42] (List.length [5, 0, 42] - 1) 0)
          ++ padded_blocks (List.dropLast [5, 0, 42])) ∧
    (∀ x ∈ List.dropLast [5, 0, 42], (padded_block x).length = 18) ∧
    ((Nat.repr (value [5, 0, 42])).toList.head? = some '0' →
      (Nat.repr (value [5, 0, 42])).toList = ['0']) :=
  C13_to_string_numeral [5, 0, 42] (by decide)

/-! ## Fibonacci index doubling -/

/-- The matrix `square_matrix` returns on canonical entries, written with
`multiply_standard`. -/
theorem square_matrix_eq (fuel : Nat) (m : Matrix) (h00 : Canonical m.m00)
    (h01 : Canonical m.m01) (h10 : Canonical m.m10) (h11 : Canonical m.m11)
    (f00 : m.m00.length < fuel) (f01 : m.m01.length < fuel) (f10 : m.m10.length < fuel)
    (f11 : m.m11.length < fuel) :
    square_matrix fuel m = some
      { m00 := operator_add (multiply_standard m.m00 m.m00) (multiply_standard m.m01 m.m10)
        m01 := operator_add (multiply_standard m.m00 m.m01) (multiply_standard m.m01 m.m11)
        m10 := operator_add (multiply_standard m.m00 m.m01) (multiply_standard m.m01 m.m11)
        m11 := operator_add (multiply_standard m.m01 m.m10)
          (multiply_standard m.m11 m.m11) } := by
  unfold square_matrix
  rw [operator_mul_eq_standard fuel _ _ h01 h10 (by omega),
    operator_mul_eq_standard fuel _ _ h00 h01 (by omega),
    operator_mul_eq_standard fuel _ _ h01 h11 (by omega),
    operator_mul_eq_standard fuel _ _ h00 h00 (by omega),
    operator_mul_eq_standard fuel _ _ h11 h11 (by omega)]
  rfl

theorem mul_add_Canonical (a b c d : List Nat) (ha : Canonical a) (hb : Canonical b)
    (hc : Canonical c) (hd : Canonical d) :
    Canonical (operator_add (multiply_standard a b) (multiply_standard c d)) ∧
      value (operator_add (multiply_standard a b) (multiply_standard c d))
        = value a * value b + value c * value d := by
  have h1 := multiply_standard_Canonical a b ha.1 ha.2.1 hb.2.1
  have h2 := multiply_standard_Canonical c d hc.1 hc.2.1 hd.2.1
  refine ⟨operator_add_Canonical _ _ h1 h2, ?_⟩
  rw [operator_add_value _ _ h1.2.1 h2.2.1, multiply_standard_value a b ha.2.1 hb.2.1,
    multiply_standard_value c d hc.2.1 hd.2.1]

theorem fib_double (p : Nat) :
    Nat.fib (2 * (p + 1) + 1) = Nat.fib (p + 1 + 1) * Nat.fib (p + 1 + 1)
        + Nat.fib (p + 1) * Nat.fib (p + 1) ∧
    Nat.fib (2 * (p + 1)) = Nat.fib (p + 1 + 1) * Nat.fib (p + 1)
        + Nat.fib (p + 1) * Nat.fib p ∧
    Nat.fib (2 * (p + 1) - 1) = Nat.fib (p + 1) * Nat.fib (p + 1) + Nat.fib p * Nat.fib p := by
  refine ⟨?_, ?_, ?_⟩
  · rw [Nat.fib_two_mul_add_one]; ring
  · have := Nat.fib_add p (p + 1)
    rw [show 2 * (p + 1) = p + (p + 1) + 1 by omega, this]
    ring
  · rw [show 2 * (p + 1) - 1 = 2 * p + 1 by omega, Nat.fib_two_mul_add_one]; ring

/-- The property of a matrix holding `[[F(n+1), F(n)], [F(n), F(n-1)]]` in canonical
entries. -/
theorem square_matrix_fib (fuel n : Nat) (m : Matrix) (hn : 1 ≤ n) (h00 : Canonical m.m00)
    (h01 : Canonical m.m01) (h10 : Canonical m.m10) (h11 : Canonical m.m11)
    (v00 : value m.m00 = Nat.fib (n + 1)) (v01 : value m.m01 = Nat.fib n)
    (v10 : value m.m10 = Nat.fib n) (v11 : value m.m11 = Nat.fib (n - 1))
    (f00 : m.m00.length < fuel) (f01 : m.m01.length < fuel) (f10 : m.m10.length < fuel)
    (f11 : m.m11.length < fuel) :
    ∃ r, square_matrix fuel m = some r ∧
      (Canonical r.m00 ∧ Canonical r.m01 ∧ Canonical r.m10 ∧ Canonical r.m11) ∧
      value r.m00 = Nat.fib (2 * n + 1) ∧ value r.m01 = Nat.fib (2 * n) ∧
      value r.m10 = Nat.fib (2 * n) ∧ value r.m11 = Nat.fib (2 * n - 1) := by
  obtain ⟨p, rfl⟩ : ∃ p, n = p + 1 := ⟨n - 1, by omega⟩
  simp only [Nat.add_sub_cancel] at v11
  obtain ⟨e1, e2, e3⟩ := fib_double p
  obtain ⟨c00, w00⟩ := mul_add_Canonical m.m00 m.m00 m.m01 m.m10 h00 h00 h01 h10
  obtain ⟨c01, w01⟩ := mul_add_Canonical m.m00 m.m01 m.m01 m.m11 h00 h01 h01 h11
  obtain ⟨c11, w11⟩ := mul_add_Canonical m.m01 m.m10 m.m11 m.m11 h01 h10 h11 h11
  rw [v00, v01, v10] at w00
  rw [v00, v01, v11] at w01
  rw [v01, v10, v11] at w11
  refine ⟨_, square_matrix_eq fuel m h00 h01 h10 h11 f00 f01 f10 f11, ?_, ?_, ?_, ?_, ?_⟩
  · dsimp only
    exact ⟨c00, c01, c01, c11⟩
  · dsimp only
    exact w00.trans e1.symm
  · dsimp only
    exact w01.trans e2.symm
  · dsimp only
    exact w01.trans e2.symm
  · dsimp only
    exact w11.trans e3.symm

/-- After `k` squarings, with a recursion budget large enough, the loop of `matrix_fib`
holds `[[F(2^k + 1), F(2^k)], [F(2^k), F(2^k - 1)]]` in canonical entries and the counter
`2^k`. -/
theorem matrix_fib_loop_spec (k : Nat) :
    ∃ fuel0 m, (∀ fuel, fuel0 ≤ fuel → matrix_fib_loop fuel k = some (m, 2 ^ k)) ∧
      (Canonical m.m00 ∧ Canonical m.m01 ∧ Canonical m.m10 ∧ Canonical m.m11) ∧
      value m.m00 = Nat.fib (2 ^ k + 1) ∧ value m.m01 = Nat.fib (2 ^ k) ∧
      value m.m10 = Nat.fib (2 ^ k) ∧ value m.m11 = Nat.fib (2 ^ k - 1) := by
  induction k with
  | zero =>
    refine ⟨0, _, fun fuel _ => rfl, ?_⟩
    simp only [set_string_number_one, set_string_number_zero]
    decide
  | succ k ih =>
    obtain ⟨fuel0, m, hloop, ⟨c00, c01, c10, c11⟩, v00, v01, v10, v11⟩ := ih
    have hpos : 1 ≤ 2 ^ k := Nat.pow_pos (by decide)
    obtain ⟨r, hr, hc, w00, w01, w10, w11⟩ := square_matrix_fib
      (m.m00.length + m.m01.length + m.m10.length + m.m11.length + 1) (2 ^ k) m hpos
      c00 c01 c10 c11 v00 v01 v10 v11 (by omega) (by omega) (by omega) (by omega)
    rw [← pow_succ'] at w00 w01 w10 w11
    refine ⟨max fuel0 (m.m00.length + m.m01.length + m.m10.length + m.m11.length + 1), r, ?_,
      hc, w00, w01, w10, w11⟩
    intro fuel hf
    have hf1 : fuel0 ≤ fuel := le_trans (Nat.le_max_left _ _) hf
    have hf2 := le_trans (Nat.le_max_right fuel0 _) hf
    have hr2 : square_matrix fuel m = some r := by
      rw [square_matrix_eq fuel m c00 c01 c10 c11 (by omega) (by omega) (by omega) (by omega),
        ← hr, square_matrix_eq _ m c00 c01 c10 c11 (by omega) (by omega) (by omega)
          (by omega)]
    show (matrix_fib_loop fuel k).bind _ = _
    rw [hloop fuel hf1]
    show (square_matrix fuel m).bind _ = _
    rw [hr2]
    show some (r, 2 ^ k * 2) = _
    rw [pow_succ]

/-- C20: `square_matrix` doubles the Fibonacci index. For `n >= 1`, on a matrix whose
canonical entries denote `[[F(n+1), F(n)], [F(n), F(n-1)]]`, it returns (with a
recursion budget above the block counts of the entries) a matrix whose canonical entries
denote `[[F(2n+1), F(2n)], [F(2n), F(2n-1)]]`. Hence, for every `k`, after `k` iterations
of the loop of `matrix_fib`, started from `[[1, 1], [1, 0]]`, the counter `i` is `2^k` and
the entry at `(1, 1)`, printed under the label `i - 1`, denotes `F(2^k - 1)` and is
printed as its decimal numeral. -/
theorem C20_square_matrix_doubles (fuel n : Nat) (m : Matrix) (hn : 1 ≤ n)
    (h00 : Canonical m.m00) (h01 : Canonical m.m01) (h10 : Canonical m.m10)
    (h11 : Canonical m.m11)
    (v00 : value m.m00 = Nat.fib (n + 1)) (v01 : value m.m01 = Nat.fib n)
    (v10 : value m.m10 = Nat.fib n) (v11 : value m.m11 = Nat.fib (n - 1))
    (f00 : m.m00.length < fuel) (f01 : m.m01.length < fuel) (f10 : m.m10.length < fuel)
    (f11 : m.m11.length < fuel) :
    (∃ r, square_matrix fuel m = some r ∧
      (Canonical r.m00 ∧ Canonical r.m01 ∧ Canonical r.m10 ∧ Canonical r.m11) ∧
      value r.m00 = Nat.fib (2 * n + 1) ∧ value r.m01 = Nat.fib (2 * n) ∧
      value r.m10 = Nat.fib (2 * n) ∧ value r.m11 = Nat.fib (2 * n - 1)) ∧
    (∀ k : Nat, ∃ budget mk,
      (∀ fuel, budget ≤ fuel → matrix_fib_loop fuel k = some (mk, 2 ^ k)) ∧
      value mk.m11 = Nat.fib (2 ^ k - 1) ∧
      to_string mk.m11 = some (Nat.repr (Nat.fib (2 ^ k - 1))).toList) := by
  refine ⟨square_matrix_fib fuel n m hn h00 h01 h10 h11 v00 v01 v10 v11 f00 f01 f10 f11, ?_⟩
  intro k
  obtain ⟨fuel0, mk, hloop, ⟨-, -, -, c11⟩, -, -, -, w11⟩ := matrix_fib_loop_spec k
  refine ⟨fuel0, mk, hloop, w11, ?_⟩
  rw [to_string_Canonical mk.m11 c11, w11]
  rfl

/-- The first squaring, of `[[1, 1], [1, 0]]` (`n = 1`). -/
theorem C20_square_matrix_doubles_witness :
    (∃ r, square_matrix 2 { m00 := [1], m01 := [1], m10 := [1], m11 := [0] } = some r ∧
      (Canonical r.m00 ∧ Canonical r.m01 ∧ Canonical r.m10 ∧ Canonical r.m11) ∧
      value r.m00 = Nat.fib (2 * 1 + 1) ∧ value r.m01 = Nat.fib (2 * 1) ∧
      value r.m10 = Nat.fib (2 * 1) ∧ value r.m11 = Nat.fib (2 * 1 - 1)) ∧
    (∀ k : Nat, ∃ budget mk,
      (∀ fuel, budget ≤ fuel → matrix_fib_loop fuel k = some (mk, 2 ^ k)) ∧
      value mk.m11 = Nat.fib (2 ^ k - 1) ∧
      to_string mk.m11 = some (Nat.repr (Nat.fib (2 ^ k - 1))).toList) :=
  C20_square_matrix_doubles 2 1 { m00 := [1], m01 := [1], m10 := [1], m11 := [0] }
    (by decide) (by decide) (by decide) (by decide) (by decide) (by decide) (by decide)
    (by decide) (by decide) (by decide) (by decide) (by decide) (by decide)

/-! ## `set_string_number`: what holds of the blocks it builds -/

theorem ulpShift_le (k fuel x : Nat) (hx : x < 2 ^ (53 + k)) : ulpShift fuel x ≤ k := by
  induction k generalizing fuel x with
  | zero =>
    cases fuel with
    | zero => exact Nat.le_refl _
    | succ f =>
      unfold ulpShift
      rw [if_pos hx]
  | succ k ih =>
    cases fuel with
    | zero => exact Nat.zero_le _
    | succ f =>
      unfold ulpShift
      split
      · exact Nat.zero_le _
      · have : x / 2 < 2 ^ (53 + k) := by
          rw [show 53 + (k + 1) = (53 + k) + 1 by omega, pow_succ] at hx
          omega
        have := ih f (x / 2) this
        omega

/-- The unit in the last place is never above the number rounded. -/
theorem ulpShift_pow_le (fuel x : Nat) (h0 : 0 < x) : 2 ^ ulpShift fuel x ≤ x := by
  induction fuel generalizing x with
  | zero => simpa [ulpShift] using h0
  | succ f ih =>
    unfold ulpShift
    split
    · simpa using h0
    · next h =>
      have h53 : (2 : Nat) ^ 53 = 9007199254740992 := by norm_num
      have := ih (x / 2) (by omega)
      rw [pow_succ]
      omega

/-- Rounding to `double` moves an integer below `2^61` up by at most 256. -/
theorem roundDouble_le (x : Nat) (hx : x < 2 ^ 61) : roundDouble x ≤ x + 256 := by
  have he : ulpShift 1024 x ≤ 8 := ulpShift_le 8 1024 x hx
  have hp : 2 ^ ulpShift 1024 x ≤ 256 := by
    have := Nat.pow_le_pow_right (show 0 < 2 by decide) he
    simpa using this
  have hq : x / 2 ^ ulpShift 1024 x * 2 ^ ulpShift 1024 x ≤ x := Nat.div_mul_le_self _ _
  unfold roundDouble
  simp only
  generalize 2 ^ ulpShift 1024 x = P at *
  generalize hQ : x / P = Q at *
  have e : (Q + 1) * P = Q * P + P := by ring
  split
  · omega
  · split
    · omega
    · split <;> omega

/-- Rounding to `double` keeps a positive integer positive. -/
theorem roundDouble_pos (x : Nat) (h0 : 0 < x) : 0 < roundDouble x := by
  have hP : 0 < 2 ^ ulpShift 1024 x := Nat.pow_pos (by decide)
  have hq : 0 < x / 2 ^ ulpShift 1024 x := Nat.div_pos (ulpShift_pow_le 1024 x h0) hP
  have hmul : 0 < x / 2 ^ ulpShift 1024 x * 2 ^ ulpShift 1024 x := Nat.mul_pos hq hP
  unfold roundDouble
  simp only
  generalize 2 ^ ulpShift 1024 x = P at *
  generalize x / P = Q at *
  have e : (Q + 1) * P = Q * P + P := by ring
  split
  · omega
  · split
    · omega
    · split <;> omega

theorem roundDouble_zero : roundDouble 0 = 0 := by decide

/-- The arithmetic of one step of `set_string_number` on a block: adding the digit `d`
at position `pos` to a block of at most `10^pos + 4096 pos` gives a block of at most
`10^(pos+1) + 4096 (pos+1)` (the roundings add at most that much), which is not zero
when the digit is not zero. -/
theorem block_update_bound (old pos d : Nat) (hpos : pos ≤ 17)
    (hold : old ≤ 10 ^ pos + 4096 * pos) (hd : d ≤ 9) :
    roundDouble (roundDouble old + roundDouble (d * roundDouble (10 ^ pos))) % U64
        ≤ 10 ^ (pos + 1) + 4096 * (pos + 1) ∧
      (1 ≤ d →
        1 ≤ roundDouble (roundDouble old + roundDouble (d * roundDouble (10 ^ pos))) % U64) := by
  have hP17 : 10 ^ pos ≤ 10 ^ 17 := Nat.pow_le_pow_right (by decide) hpos
  have hP1 : 0 < 10 ^ pos := Nat.pow_pos (by decide)
  have e17 : (10 : Nat) ^ 17 = 100000000000000000 := by norm_num
  have e61 : (2 : Nat) ^ 61 = 2305843009213693952 := by norm_num
  have e64 : U64 = 18446744073709551616 := by decide
  rw [e17] at hP17
  rw [pow_succ]
  generalize 10 ^ pos = P at *
  have h1 := roundDouble_le P (by omega)
  have h1p := roundDouble_pos P hP1
  generalize roundDouble P = a at *
  have hb : d * a ≤ 9 * (P + 256) := Nat.mul_le_mul hd h1
  have h2 := roundDouble_le (d * a) (by omega)
  have h2p : 1 ≤ d → 0 < roundDouble (d * a) :=
    fun h => roundDouble_pos _ (Nat.mul_pos h h1p)
  generalize roundDouble (d * a) = term at *
  have h3 := roundDouble_le old (by omega)
  generalize roundDouble old = o at *
  have h4 := roundDouble_le (o + term) (by omega)
  have h4p : 1 ≤ d → 0 < roundDouble (o + term) :=
    fun h => roundDouble_pos _ (by have := h2p h; omega)
  generalize roundDouble (o + term) = new at *
  rw [Nat.mod_eq_of_lt (by omega)]
  exact ⟨by omega, fun h => h4p h⟩

theorem parse_step (len j : Nat) (st : ParseState) (c : Char) (inv : ParseInv len j st)
    (hc : c.toNat - 48 ≤ 9) :
    ParseInv len (j + 1) (set_string_step st c) ∧
      (set_string_step st c).vector_index = j / 18 ∧
      (1 ≤ c.toNat - 48 → j / 18 < len →
        1 ≤ (set_string_step st c).vector_number.getD (j / 18) 0) := by
  obtain ⟨hlen, hcur, hle, hpp, hbound, habove⟩ := inv
  by_cases hw : st.position ≥ 18
  · -- a new block is started
    have hpos : st.position = 18 := by omega
    have hold : st.vector_number.getD (st.vector_index + 1) 0 = 0 :=
      habove _ (Nat.lt_succ_self _)
    obtain ⟨hb, hp⟩ := block_update_bound 0 0 (c.toNat - 48) (by decide) (by decide) hc
    have hstep : set_string_step st c =
        { vector_number := st.vector_number.set (st.vector_index + 1)
            (roundDouble (roundDouble 0
              + roundDouble ((c.toNat - 48) * roundDouble (10 ^ 0))) % U64)
          vector_index := st.vector_index + 1
          position := 0 + 1 } := by
      unfold set_string_step
      simp only [EXPONENT, EXPONENTIATION_BASE, hw, decide_True, if_true, hold]
    rw [hstep]
    have hidx : st.vector_index + 1 = j / 18 := by omega
    refine ⟨⟨?_, ?_, ?_, ?_, ?_, ?_⟩, hidx, ?_⟩
    · simp [hlen]
    · show (st.vector_index + 1) * 18 + (0 + 1) = j + 1
      omega
    · show 0 + 1 ≤ 18
      omega
    · right; show 1 ≤ 0 + 1; omega
    · show (st.vector_number.set _ _).getD (st.vector_index + 1) 0 ≤ _
      rw [getD_set]
      split
      · exact hb
      · rw [hold]; exact Nat.zero_le _
    · intro p hp2
      show (st.vector_number.set _ _).getD p 0 = 0
      rw [getD_set, if_neg (by intro h; have := h.1; have : st.vector_index + 1 < p := hp2
                               omega)]
      exact habove p (by have : st.vector_index + 1 < p := hp2
                         omega)
    · intro h1 hl
      show 1 ≤ (st.vector_number.set _ _).getD (j / 18) 0
      rw [getD_set, if_pos ⟨hidx.symm, by rw [hlen, hidx]; exact hl⟩]
      exact hp h1
  · -- the current block goes on
    have hpos : st.position ≤ 17 := by omega
    obtain ⟨hb, hp⟩ := block_update_bound (st.vector_number.getD st.vector_index 0)
      st.position (c.toNat - 48) hpos hbound hc
    have hstep : set_string_step st c =
        { vector_number := st.vector_number.set st.vector_index
            (roundDouble (roundDouble (st.vector_number.getD st.vector_index 0)
              + roundDouble ((c.toNat - 48) * roundDouble (10 ^ st.position))) % U64)
          vector_index := st.vector_index
          position := st.position + 1 } := by
      unfold set_string_step
      simp only [EXPONENT, EXPONENTIATION_BASE, hw, decide_False, if_false, Bool.false_eq_true]
    rw [hstep]
    have hidx : st.vector_index = j / 18 := by omega
    refine ⟨⟨?_, ?_, ?_, ?_, ?_, ?_⟩, hidx, ?_⟩
    · simp [hlen]
    · show st.vector_index * 18 + (st.position + 1) = j + 1
      omega
    · show st.position + 1 ≤ 18
      omega
    · right; show 1 ≤ st.position + 1; omega
    · show (st.vector_number.set _ _).getD st.vector_index 0
        ≤ 10 ^ (st.position + 1) + 4096 * (st.position + 1)
      rw [getD_set]
      split
      · exact hb
      · exact Nat.le_trans hbound (by
          have : 10 ^ st.position ≤ 10 ^ (st.position + 1) :=
            Nat.pow_le_pow_right (by decide) (Nat.le_succ _)
          omega)
    · intro p hp2
      show (st.vector_number.set _ _).getD p 0 = 0
      rw [getD_set, if_neg (by intro h; have := h.1; have : st.vector_index < p := hp2
                               omega)]
      exact habove p hp2
    · intro h1 hl
      show 1 ≤ (st.vector_number.set _ _).getD (j / 18) 0
      rw [getD_set, if_pos ⟨hidx.symm, by rw [hlen, ← hidx] at *; omega⟩]
      exact hp h1

theorem ParseInv_init (len : Nat) :
    ParseInv len 0 { vector_number := List.replicate len 0, vector_index := 0, position := 0 } where
  len_eq := by simp
  cursor := rfl
  pos_le := Nat.zero_le _
  pos_pos := Or.inl rfl
  current := by
    show (List.replicate len 0).getD 0 0 ≤ _
    rw [getD_replicate_zero]
    exact Nat.zero_le _
  above := fun p _ => getD_replicate_zero len p

theorem parse_loop (len : Nat) (l : List Char) (hd : ∀ c ∈ l, 48 ≤ c.toNat ∧ c.toNat ≤ 57) :
    ParseInv len l.length (l.foldl set_string_step
      { vector_number := List.replicate len 0, vector_index := 0, position := 0 }) := by
  induction l using List.reverseRecOn with
  | nil => exact ParseInv_init len
  | append_singleton l c ih =>
    rw [List.foldl_append, List.length_append]
    have hc := hd c (by simp)
    exact (parse_step len l.length _ c (ih (fun x hx => hd x (by simp [hx])))
      (by omega)).1

theorem set_string_number_length (s : List Char)
    (hd : ∀ c ∈ s, 48 ≤ c.toNat ∧ c.toNat ≤ 57) :
    (set_string_number s).length = (s.length + 17) / 18 := by
  have inv := parse_loop ((s.length + 17) / 18) s.reverse (fun c hc => hd c (by simpa using hc))
  exact inv.len_eq

/-- When the first character is a digit other than `'0'`, the top block is not zero. -/
theorem set_string_number_top (c : Char) (rest : List Char)
    (hd : ∀ x ∈ c :: rest, 48 ≤ x.toNat ∧ x.toNat ≤ 57) (hc : c ≠ '0') :
    (set_string_number (c :: rest)).getLast? ≠ some 0 := by
  have hcd := hd c (List.mem_cons_self _ _)
  have hc48 : c.toNat ≠ 48 := by
    intro h
    apply hc
    rw [← Char.ofNat_toNat c, h]
  have inv := parse_loop (((c :: rest).length + 17) / 18) rest.reverse
    (fun x hx => hd x (List.mem_cons_of_mem _ (by simpa using hx)))
  obtain ⟨inv2, -, htop⟩ := parse_step _ _ _ c inv (by omega)
  have hlen : ((c :: rest).length + 17) / 18 = rest.reverse.length / 18 + 1 := by
    simp only [List.length_cons, List.length_reverse]
    omega
  have hval := htop (by omega) (by omega)
  have hres : set_string_number (c :: rest) =
      (set_string_step (rest.reverse.foldl set_string_step
        { vector_number := List.replicate (((c :: rest).length + 17) / 18) 0
          vector_index := 0, position := 0 }) c).vector_number := by
    unfold set_string_number
    rw [List.reverse_cons, List.foldl_append]
    rfl
  rw [hres]
  generalize ((c :: rest).length + 17) / 18 = L at *
  have hL1 : L - 1 = rest.reverse.length / 18 := by omega
  rw [List.getLast?_eq_getElem?, inv2.len_eq, hL1]
  rw [List.getD_eq_getElem?_getD] at hval
  intro h
  rw [h] at hval
  simp at hval

theorem zero_step (len : Nat) (st : ParseState) (h : st.vector_number = List.replicate len 0) :
    (set_string_step st '0').vector_number = List.replicate len 0 := by
  have hz : ('0' : Char).toNat - 48 = 0 := by decide
  have hs := set_getD_self (List.replicate len 0)
  simp only [getD_replicate_zero] at hs
  unfold set_string_step
  simp only [h, hz, Nat.zero_mul, getD_replicate_zero, roundDouble_zero, Nat.add_zero,
    Nat.zero_mod, hs]

theorem zero_loop (len n : Nat) (st : ParseState) (h : st.vector_number = List.replicate len 0) :
    ((List.replicate n '0').foldl set_string_step st).vector_number
      = List.replicate len 0 := by
  induction n generalizing st with
  | zero => exact h
  | succ n ih =>
    rw [List.replicate_succ, List.foldl_cons]
    exact ih _ (zero_step len st h)

/-- Leading zeros are not stripped: an all-zero string of `n` characters gives
`ceil(n / 18)` zero blocks. -/
theorem set_string_number_zeros (n : Nat) :
    set_string_number (List.replicate n '0') = List.replicate ((n + 17) / 18) 0 := by
  unfold set_string_number
  rw [List.reverse_replicate, List.length_replicate]
  exact zero_loop _ n _ rfl

set_option maxRecDepth 100000 in
/-- C12, as stated, fails on nineteen `'0'` characters: `set_string_number` builds the
two blocks `[0, 0]`, not the single zero block, so the result ends in a zero block and is
not normalized. -/
theorem C12_nineteen_zeros_not_normalized :
    set_string_number "0000000000000000000".toList = [0, 0] ∧
    (set_string_number "0000000000000000000".toList).getLast? = some 0 ∧
    set_string_number "0000000000000000000".toList ≠ [0] ∧
    ¬ Canonical (set_string_number "0000000000000000000".toList) := by
  decide

/-- C12, amended: for every non-empty string of ASCII decimal digits,
`set_string_number` builds exactly `ceil(size / 18)` blocks, so the sequence is never
empty; it has no trailing zero block (apart from the single block `[0]`) when the string
has at most 18 characters or does not start with `'0'`; leading zeros are not stripped,
an all-zero string of `n` characters giving `ceil(n / 18)` zero blocks. -/
theorem C12_set_string_number_blocks (s : List Char) (hne : s ≠ [])
    (hd : ∀ c ∈ s, 48 ≤ c.toNat ∧ c.toNat ≤ 57) :
    (set_string_number s).length = (s.length + 17) / 18 ∧
    set_string_number s ≠ [] ∧
    (s.length ≤ 18 ∨ s.head? ≠ some '0' →
      (set_string_number s).getLast? = some 0 → set_string_number s = [0]) ∧
    (∀ n, set_string_number (List.replicate n '0') = List.replicate ((n + 17) / 18) 0) := by
  have hlen := set_string_number_length s hd
  have hpos : 0 < s.length := List.length_pos.mpr hne
  refine ⟨hlen, ?_, ?_, set_string_number_zeros⟩
  · intro e
    rw [e] at hlen
    simp only [List.length_nil] at hlen
    omega
  · intro hcase hlast
    rcases hcase with h18 | hhead
    · have h1 : (set_string_number s).length = 1 := by omega
      match hs : set_string_number s, h1 with
      | [x], _ =>
        rw [hs] at hlast
        simp at hlast
        rw [hlast]
    · exfalso
      match s, hne, hd, hhead, hlast with
      | c :: rest, _, hd, hhead, hlast =>
        exact set_string_number_top c rest hd (by simpa using hhead) hlast

theorem C12_set_string_number_blocks_witness :
    (set_string_number "12345678901234567890".toList).length
      = ("12345678901234567890".toList.length + 17) / 18 ∧
    set_string_number "12345678901234567890".toList ≠ [] ∧
    ("12345678901234567890".toList.length ≤ 18 ∨
        "12345678901234567890".toList.head? ≠ some '0' →
      (set_string_number "12345678901234567890".toList).getLast? = some 0 →
        set_string_number "12345678901234567890".toList = [0]) ∧
    (∀ n, set_string_number (List.replicate n '0') = List.replicate ((n + 17) / 18) 0) :=
  C12_set_string_number_blocks "12345678901234567890".toList (by decide) (by decide)


/-! ## The branch on the low parts alone is dead -/

/-- The body of `multiply_karatsuba_optimized`, with its branches named. -/
theorem multiply_karatsuba_optimized_branches (fuel : Nat) (vec1 vec2 : List Nat) :
    multiply_karatsuba_optimized (fuel + 1) vec1 vec2 =
      if vec1.length ≤ 32 ∨ vec2.length ≤ 32 then some (multiply_standard_optimized vec1 vec2)
      else if high_zero vec1 (karatsuba_split vec1 vec2) ∧
          high_zero vec2 (karatsuba_split vec1 vec2) then
        karatsuba_low_parts_alone fuel vec1 vec2
      else karatsuba_three_products fuel vec1 vec2 := by
  rfl

/-- A high part can only be flagged as zero when the operand has at most `split + 1`
blocks. -/
theorem high_zero_length (vec : List Nat) (split : Nat) (h : high_zero vec split) :
    vec.length ≤ split + 1 := by
  unfold high_zero at h
  rw [create_subrange_high_length] at h
  split at h <;> omega

/-- C21: when both operands of `multiply_karatsuba_optimized` pass the base-case test
(both block counts above 32), the flags `a_high_zero` and `b_high_zero` are never both
set, so the branch that recurses on the low parts alone is not taken: the call goes
through the branch that computes the three products. -/
theorem C21_low_parts_branch_unreachable (vec1 vec2 : List Nat) (h1 : 32 < vec1.length)
    (h2 : 32 < vec2.length) :
    ¬ (high_zero vec1 (karatsuba_split vec1 vec2) ∧
        high_zero vec2 (karatsuba_split vec1 vec2)) ∧
    ∀ fuel, multiply_karatsuba_optimized (fuel + 1) vec1 vec2
      = karatsuba_three_products fuel vec1 vec2 := by
  have hnot : ¬ (high_zero vec1 (karatsuba_split vec1 vec2) ∧
      high_zero vec2 (karatsuba_split vec1 vec2)) := by
    rintro ⟨ha, hb⟩
    have la := high_zero_length vec1 _ ha
    have lb := high_zero_length vec2 _ hb
    obtain ⟨-, -, -, hS, hM1, hM2, hM3⟩ := split_bounds vec1.length vec2.length
      (max vec1.length vec2.length) (karatsuba_split vec1 vec2) h1 h2 rfl rfl
    generalize karatsuba_split vec1 vec2 = S at *
    generalize max vec1.length vec2.length = M at *
    omega
  refine ⟨hnot, fun fuel => ?_⟩
  rw [multiply_karatsuba_optimized_branches, if_neg (by omega), if_neg hnot]

/-- Two operands of 34 and 33 blocks whose blocks are all zero: the high parts hold
only zeros but have 17 and 16 blocks, so neither flag is set. -/
theorem C21_low_parts_branch_unreachable_witness :
    ¬ (high_zero (List.replicate 34 0)
          (karatsuba_split (List.replicate 34 0) (List.replicate 33 0)) ∧
        high_zero (List.replicate 33 0)
          (karatsuba_split (List.replicate 34 0) (List.replicate 33 0))) ∧
    ∀ fuel, multiply_karatsuba_optimized (fuel + 1) (List.replicate 34 0) (List.replicate 33 0)
      = karatsuba_three_products fuel (List.replicate 34 0) (List.replicate 33 0) :=
  C21_low_parts_branch_unreachable (List.replicate 34 0) (List.replicate 33 0)
    (by simp) (by simp)

end BigInt
